import Mathlib

/-!
The tool minipatch: a shallow embedding of `tools/minipatch/main.cpp`.

The development models the patch tool of the repository:

* `PatchFragment`, `FilePatch`: the data model (`struct PatchFragment`, `struct FilePatch`);
* `sublist_match`: the range matcher;
* `get_fragments_applied`: the classification of the hunks of one file;
* `apply_fragments`: the "Apply each patch" loop of `main`;
* `Parser`, `load_patch`, `load_file`: the line-oriented patch parser and file loader;
* `main_loop`: the per-file driver of `main`, over an explicit file system;
* `std_sort`: the library function `std::sort` that `main` calls, as libstdc++ implements it.

Machine integers are natural numbers or integers with explicit wrap-around:
`unsigned` is `Nat` modulo `2^32`, `size_t` is `Nat` modulo `2^64`, `int` is `Int` wrapped into
`[-2^31, 2^31)`. A `std::string` is a `String`; a `std::vector<T>` is a `List T`.
Operations whose C++ behaviour is undefined (an invalid iterator range, an index outside a
vector) return `none`. Whether a `reserve` call can allocate its memory is not determined by
the program: it is the parameter `can_reserve` of the parser.
-/

namespace Minipatch

/-! ## Machine integers -/

/-- Modulus of `unsigned` (32 bits). -/
def UINT_MOD : Nat := 2 ^ 32

/-- Modulus of `size_t` (64 bits). -/
def SIZE_MOD : Nat := 2 ^ 64

/-- Conversion of an integer value to `int` (`static_cast<int>` and `int` arithmetic results):
the value is wrapped into `[-2^31, 2^31)`. -/
def to_int (x : Int) : Int := (x + 2 ^ 31) % 2 ^ 32 - 2 ^ 31

/-- The expression `u + i` for `unsigned u` and `int i`: `i` is converted to `unsigned` and the sum
is taken modulo `2^32`; the result is then passed on as a `size_t`. -/
def unsigned_add_int (u : Nat) (i : Int) : Nat := (((u : Int) + i) % 2 ^ 32).toNat

/-- The expression `u + n` for `unsigned u` and `size_t n`: the sum is a `size_t`. -/
def unsigned_add_size (u n : Nat) : Nat := (u + n) % SIZE_MOD

/-! ## Data model -/

/-- The struct `PatchFragment`: a hunk of a patch. `orig_line` and `new_line` are `unsigned`. -/
structure PatchFragment where
  orig_line : Nat
  new_line : Nat
  orig_contents : List String
  new_contents : List String
deriving DecidableEq, Repr

/-- The member initialisers of the constructor
`PatchFragment(orig_line, orig_count, new_line, new_count)`: both starts are decremented in
`unsigned` arithmetic and the contents start empty; the counts are used by the body of the
constructor only, see `PatchFragment.construct`. -/
def PatchFragment.create (orig_line _orig_count new_line _new_count : Nat) : PatchFragment :=
  { orig_line := (orig_line + (UINT_MOD - 1)) % UINT_MOD
    new_line := (new_line + (UINT_MOD - 1)) % UINT_MOD
    orig_contents := []
    new_contents := [] }

/-- The call `v.reserve(n)` on an empty vector of strings: nothing is allocated for `n = 0`;
otherwise room for `n` strings is asked for, and the parameter `can_reserve n` tells whether the
run can allocate it. When it cannot, `reserve` throws `std::bad_alloc`. -/
def reserve_succeeds (can_reserve : Nat → Bool) (n : Nat) : Bool :=
  n == 0 || can_reserve n

/-- The constructor `PatchFragment(orig_line, orig_count, new_line, new_count)` with its body:
after the member initialisers, `orig_contents.reserve(orig_count)` and then
`new_contents.reserve(new_count)` ask for room for the declared numbers of lines. The result is
`.error` with the text of `std::bad_alloc` when one of them throws. -/
def PatchFragment.construct (can_reserve : Nat → Bool)
    (orig_line orig_count new_line new_count : Nat) : Except String PatchFragment :=
  if reserve_succeeds can_reserve orig_count && reserve_succeeds can_reserve new_count then
    .ok (PatchFragment.create orig_line orig_count new_line new_count)
  else .error "std::bad_alloc"

/-- A run in which every `reserve` succeeds. -/
def reserve_always (_n : Nat) : Bool := true

/-- Size in bytes of a `std::string` object (libstdc++, 64 bits). -/
def SIZEOF_STRING : Nat := 32

/-- A run that can allocate at most `bytes` bytes at once: `reserve(n)` on a vector of strings
asks for `n * sizeof(std::string)` bytes. -/
def reserve_within (bytes : Nat) (n : Nat) : Bool := decide (n * SIZEOF_STRING ≤ bytes)

/-- The struct `FilePatch`: the hunks of one file. -/
structure FilePatch where
  orig_path : String
  new_path : String
  fragments : List PatchFragment
deriving DecidableEq, Repr

/-- The constructor `FilePatch(path)`. -/
def FilePatch.create (path : String) : FilePatch :=
  { orig_path := path, new_path := "", fragments := [] }

/-! ## Range matcher -/

/-- The `for` loop of `sublist_match`: `i` runs over the indices of `pattern`, the first
difference between `target[offset + i]` and `pattern[i]` returns `false`. The list argument is
the part of `pattern` from index `i` on. -/
def sublist_match_loop (target : List String) (offset : Nat) : List String → Nat → Bool
  | [], _ => true
  | p :: rest, i =>
    if target[offset + i]? ≠ some p then false
    else sublist_match_loop target offset rest (i + 1)

/-- The function `sublist_match(target, offset, pattern)`; `offset` is a `size_t`, and the sum
`offset + pattern.size()` is computed in `size_t`. -/
def sublist_match (target : List String) (offset : Nat) (pattern : List String) : Bool :=
  if offset ≥ target.length then false
  else if (offset + pattern.length) % SIZE_MOD > target.length then false
  else sublist_match_loop target offset pattern 0

/-! ## Classification of the hunks of a file -/

/-- The value `static_cast<int>(frag.orig_line + frag.orig_contents.size())`. -/
def orig_one_past_end (frag : PatchFragment) : Int :=
  to_int (unsigned_add_size frag.orig_line frag.orig_contents.length)

/-- The value `static_cast<int>(frag.new_line + frag.new_contents.size())`. -/
def new_one_past_end (frag : PatchFragment) : Int :=
  to_int (unsigned_add_size frag.new_line frag.new_contents.length)

/-- The statement `src_bias += orig_one_past_end - new_one_past_end;` in `int` arithmetic. -/
def bias_step (src_bias : Int) (frag : PatchFragment) : Int :=
  to_int (src_bias + to_int (orig_one_past_end frag - new_one_past_end frag))

/-- The offset at which `get_fragments_applied` tests `frag.orig_contents`:
`frag.orig_line + src_bias`. -/
def probe_offset (frag : PatchFragment) (src_bias : Int) : Nat :=
  unsigned_add_int frag.orig_line src_bias

/-- The body of the `for` loop of `get_fragments_applied` for one fragment, on the state
`(src_bias, fragments_applied)`; `none` is the early `return ::std::vector<bool>()`. -/
def get_fragments_applied_step (orig_file : List String) (st : Int × List Bool)
    (frag : PatchFragment) : Option (Int × List Bool) :=
  if !sublist_match orig_file (probe_offset frag st.1) frag.orig_contents then
    if frag.orig_line = frag.new_line
        ∧ sublist_match orig_file frag.new_line frag.new_contents = true then
      some (bias_step st.1 frag, st.2 ++ [true])
    else
      none
  else
    some (st.1, st.2 ++ [false])

/-- The `for` loop of `get_fragments_applied` over the remaining fragments, from the state
`(src_bias, fragments_applied)`; `none` when the loop returned early. -/
def get_fragments_applied_loop (orig_file : List String) :
    List PatchFragment → Int × List Bool → Option (Int × List Bool)
  | [], st => some st
  | frag :: rest, st =>
    match get_fragments_applied_step orig_file st frag with
    | none => none
    | some st1 => get_fragments_applied_loop orig_file rest st1

/-- The function `get_fragments_applied(orig_file, fragments)`: the empty vector on an early
return, the vector built by the loop otherwise. -/
def get_fragments_applied (orig_file : List String) (fragments : List PatchFragment) :
    List Bool :=
  match get_fragments_applied_loop orig_file fragments (0, []) with
  | none => []
  | some st => st.2

/-! ## Rewriter: the "Apply each patch" loop of `main` -/

/-- The iterator range `[orig_file.begin() + first, orig_file.begin() + last)` as inserted by
`new_file2.insert`; `none` when the range is not a valid range of `orig_file`. -/
def copy_range (orig_file : List String) (first last : Int) : Option (List String) :=
  if 0 ≤ first ∧ first ≤ last ∧ last ≤ (orig_file.length : Int) then
    some ((orig_file.drop first.toNat).take (last - first).toNat)
  else none

/-- The "Apply each patch" loop from index `frag_idx` on: the list argument holds the fragments
`f.fragments[frag_idx..]`; the state is `new_file2`, `src_ofs` (a `size_t`) and `src_bias`
(an `int`). The result is the state after the loop. -/
def apply_fragments_loop (orig_file : List String) (fragments_applied : List Bool) :
    List PatchFragment → Nat → List String → Nat → Int → Option (List String × Nat × Int)
  | [], _, new_file2, src_ofs, src_bias => some (new_file2, src_ofs, src_bias)
  | frag :: rest, frag_idx, new_file2, src_ofs, src_bias =>
    match copy_range orig_file ((src_ofs : Int) + src_bias) ((frag.orig_line : Int) + src_bias),
        fragments_applied[frag_idx]? with
    | some copied, some true =>
      apply_fragments_loop orig_file fragments_applied rest (frag_idx + 1)
        (new_file2 ++ copied)
        (unsigned_add_size frag.orig_line frag.orig_contents.length)
        (bias_step src_bias frag)
    | some copied, some false =>
      apply_fragments_loop orig_file fragments_applied rest (frag_idx + 1)
        (new_file2 ++ copied ++ frag.new_contents)
        (unsigned_add_size frag.orig_line frag.orig_contents.length)
        src_bias
    | _, _ => none

/-- The rewriter: lines 160-181 of `main`, producing `new_file2`. -/
def apply_fragments (orig_file : List String) (fragments : List PatchFragment)
    (fragments_applied : List Bool) : Option (List String) :=
  match apply_fragments_loop orig_file fragments_applied fragments 0 [] 0 0 with
  | none => none
  | some (new_file2, src_ofs, src_bias) =>
    match copy_range orig_file ((src_ofs : Int) + src_bias) (orig_file.length : Int) with
    | none => none
    | some copied => some (new_file2 ++ copied)

/-- The "already patched" check of `main`: `is_applied` after the loop over the fragments. -/
def is_applied (new_file : List String) (fragments : List PatchFragment) : Bool :=
  fragments.foldl (fun acc frag => acc && sublist_match new_file frag.new_line frag.new_contents)
    true

/-! ## Text, lines and C strings -/

/-- The characters of `s.c_str()` read as a C string: everything before the first NUL. -/
def c_str (s : List Char) : List Char := s.takeWhile (fun c => c ≠ '\x00')

/-- The successive results of `std::getline(ifs, line)` in a `while(!ifs.eof())` loop over a stream
holding `text`: the text is cut at every newline, and the last piece (possibly empty) is the one
that reaches the end of the stream. The second argument is the line read so far, reversed. -/
def getlines_from : List Char → List Char → List (List Char)
  | [], cur => [cur.reverse]
  | c :: rest, cur =>
    if c = '\n' then cur.reverse :: getlines_from rest []
    else getlines_from rest (c :: cur)

/-- All the lines that the `getline` loop reads from `text`. -/
def getlines (text : List Char) : List (List Char) := getlines_from text []

/-- The statement `if(!line.empty() && line.back() == c) line.pop_back();`. -/
def pop_back_if (c : Char) (line : List Char) : List Char :=
  if line.getLast? = some c then line.dropLast else line

/-- The two statements that strip a trailing newline and then a trailing carriage return. -/
def strip_line_end (line : List Char) : List Char :=
  pop_back_if '\r' (pop_back_if '\n' line)

/-! ## The struct `Parser` -/

/-- The struct `Parser`: `l` points into the buffer of the line, a `std::string`; it is modelled
by the characters from `l` to the end of the string. The terminating NUL follows them. -/
structure Parser where
  l : List Char
deriving DecidableEq, Repr

/-- The constructor `Parser(s)`: `l` is `s.c_str()`. -/
def Parser.create (s : List Char) : Parser := ⟨s⟩

/-- The character `*l`: at the end of the string it is the terminating NUL. -/
def Parser.deref (p : Parser) : Char := p.l.headD '\x00'

/-- The method `is_eof`. -/
def Parser.is_eof (p : Parser) : Bool := decide (p.deref = '\x00')

/-- The C function `isblank` (space or horizontal tab). -/
def isblank (c : Char) : Bool := c = ' ' || c = '\t'

/-- The C function `isdigit`. -/
def isdigit (c : Char) : Bool := '0' ≤ c && c ≤ '9'

/-- The method `consume_whitespace`. -/
def Parser.consume_whitespace (p : Parser) : Parser := ⟨p.l.dropWhile isblank⟩

/-- The method `try_consume(const char* v)`, for a literal `v` without NUL: `strncmp` finds the
`strlen(v)` characters at `l` equal to `v`. The result and the parser afterwards. -/
def Parser.try_consume (p : Parser) (v : List Char) : Bool × Parser :=
  if v.isPrefixOf p.l then (true, ⟨p.l.drop v.length⟩) else (false, p)

/-- The method `expect_consume(v)`: the parser afterwards, or the message of the exception. -/
def Parser.expect_consume (p : Parser) (v : List Char) : Except String Parser :=
  if v.isPrefixOf p.l then .ok ⟨p.l.drop v.length⟩
  else .error ("Parser error: Expected '" ++ String.mk v ++ "'")

/-- The `while(cb(*l))` part of `consume_while`, after the first `l ++`: `none` when `cb` accepts
the terminating NUL, so that `l` leaves the string. -/
def consume_while_loop (cb : Char → Bool) : List Char → Option (List Char)
  | [] => if cb '\x00' then none else some []
  | c :: rest => if cb c then consume_while_loop cb rest else some (c :: rest)

/-- The method `consume_while(cb)`: `rv` is `cb(*l)`, then `l` is advanced at least once and
further while `cb(*l)`. The result is `rv` and where `l` stands afterwards; at the end of the
string the first `l ++` steps over the terminating NUL and `l` stands outside the string, which
is the position `none`. -/
def Parser.consume_while (p : Parser) (cb : Char → Bool) : Bool × Option Parser :=
  match p.l with
  | [] => (cb '\x00', none)
  | c :: rest => (cb c, (consume_while_loop cb rest).map Parser.mk)

/-- The byte that `*l` reads when `l` stands outside the string. The program does not determine
it; it only shows in the text of an error message, and is written here as NUL. -/
def BYTE_OUTSIDE : Char := '\x00'

/-- Value of a string of decimal digits, as computed by `std::stol`. -/
def digits_value (ds : List Char) : Nat :=
  ds.foldl (fun acc c => 10 * acc + (c.toNat - '0'.toNat)) 0

/-- Largest value of `long` (64 bits); `std::stol` throws `std::out_of_range` above it. -/
def LONG_MAX : Nat := 2 ^ 63 - 1

/-- The method `read_int`. When `consume_while` returns false the exception
`Expected digit` is thrown wherever `l` stands, also after it has left the string (only the
character named in the message depends on it): the result `.error`. Otherwise the digits read are
converted by `std::stol` and the result is `.ok` with the `unsigned` value and the parser
afterwards; `none` stands for a position outside the string after digits, which the digit test
never produces. -/
def Parser.read_int (p : Parser) : Option (Except String (Nat × Parser)) :=
  match p.consume_while isdigit with
  | (false, some p1) =>
    some (.error ("Expected digit, found \x60" ++ String.mk [p1.deref] ++ "\x60"))
  | (false, none) =>
    some (.error ("Expected digit, found \x60" ++ String.mk [BYTE_OUTSIDE] ++ "\x60"))
  | (true, none) => none
  | (true, some p1) =>
    let n := digits_value (p.l.take (p.l.length - p1.l.length))
    if n > LONG_MAX then some (.error "stol") else some (.ok (n % UINT_MOD, p1))

/-! ## The patch parser `load_patch` -/

/-- Apply `g` to `v.back()`; `none` when the vector is empty (undefined behaviour). -/
def modify_back {α : Type} (g : α → Option α) : List α → Option (List α)
  | [] => none
  | [x] => (g x).map (fun y => [y])
  | x :: y :: rest => (modify_back g (y :: rest)).map (fun t => x :: t)

/-- Apply `g` to `rv.back().fragments.back()`; `none` when `rv` or `rv.back().fragments` is
empty. -/
def modify_back_fragment (g : PatchFragment → PatchFragment) (rv : List FilePatch) :
    Option (List FilePatch) :=
  modify_back (fun f => (modify_back (fun frag => some (g frag)) f.fragments).map
    (fun frs => { f with fragments := frs })) rv

/-- The statement `frag.new_contents.push_back(s)`. -/
def push_new (s : String) (frag : PatchFragment) : PatchFragment :=
  { frag with new_contents := frag.new_contents ++ [s] }

/-- The statement `frag.orig_contents.push_back(s)`. -/
def push_orig (s : String) (frag : PatchFragment) : PatchFragment :=
  { frag with orig_contents := frag.orig_contents ++ [s] }

/-- The `@@` branch of `load_patch` after `try_consume("@@")`: the four integers of the header,
in the order `orig_line, orig_len, new_line, new_len`. -/
def parse_hunk_header (p : Parser) : Option (Except String (Nat × Nat × Nat × Nat)) :=
  let p := p.consume_whitespace
  match p.expect_consume ['-'] with
  | .error e => some (.error e)
  | .ok p =>
  match p.read_int with
  | none => none
  | some (.error e) => some (.error e)
  | some (.ok (orig_line, p)) =>
  match p.expect_consume [','] with
  | .error e => some (.error e)
  | .ok p =>
  match p.read_int with
  | none => none
  | some (.error e) => some (.error e)
  | some (.ok (orig_len, p)) =>
  let p := p.consume_whitespace
  match p.expect_consume ['+'] with
  | .error e => some (.error e)
  | .ok p =>
  match p.read_int with
  | none => none
  | some (.error e) => some (.error e)
  | some (.ok (new_line, p)) =>
  match p.expect_consume [','] with
  | .error e => some (.error e)
  | .ok p =>
  match p.read_int with
  | none => none
  | some (.error e) => some (.error e)
  | some (.ok (new_len, p)) =>
  let p := p.consume_whitespace
  match p.expect_consume ['@', '@'] with
  | .error e => some (.error e)
  | .ok _ => some (.ok (orig_line, orig_len, new_line, new_len))

/-- The body of the `try` block of `load_patch` for one non-empty `line`, on the vector `rv`, in
a run where `can_reserve` tells which `reserve` calls succeed: `none` is undefined behaviour
(`back()` of an empty vector), `.error` the message of a thrown exception, `.ok` the vector
afterwards. A path is the C string at `l`, up to the first NUL. -/
def parse_line_in (can_reserve : Nat → Bool) (rv : List FilePatch) (line : List Char) :
    Option (Except String (List FilePatch)) :=
  let p := Parser.create line
  if (p.try_consume ['-', '-', '-']).1 then
    let p := (p.try_consume ['-', '-', '-']).2.consume_whitespace
    some (.ok (rv ++ [FilePatch.create (String.mk (c_str p.l))]))
  else if (p.try_consume ['+', '+', '+']).1 then
    let p := (p.try_consume ['+', '+', '+']).2.consume_whitespace
    match rv.getLast? with
    | none => some (.error "`+++` without preceding ---")
    | some f =>
      if ¬ (f.new_path = "") then some (.error "`+++` without preceding ---")
      else modify_back (fun f => some { f with new_path := String.mk (c_str p.l) }) rv |>.map .ok
  else if (p.try_consume ['@', '@']).1 then
    match parse_hunk_header (p.try_consume ['@', '@']).2 with
    | none => none
    | some (.error e) => some (.error e)
    | some (.ok (orig_line, orig_len, new_line, new_len)) =>
      match rv.getLast? with
      | none => some (.error "@@ without preceding header")
      | some f =>
        if f.new_path = "" then some (.error "@@ without preceding header")
        else
          match PatchFragment.construct can_reserve orig_line orig_len new_line new_len with
          | .error e => some (.error e)
          | .ok frag =>
            modify_back (fun f => some { f with fragments := f.fragments ++ [frag] }) rv
              |>.map .ok
  else
    match line.head? with
    | some '+' => modify_back_fragment (push_new (String.mk ((c_str line).drop 1))) rv |>.map .ok
    | some '-' => modify_back_fragment (push_orig (String.mk ((c_str line).drop 1))) rv |>.map .ok
    | some ' ' =>
      modify_back_fragment
        (fun frag => push_orig (String.mk ((c_str line).drop 1))
          (push_new (String.mk ((c_str line).drop 1)) frag)) rv |>.map .ok
    | _ => some (.ok rv)

/-- The body of the `try` block of `load_patch` in a run where every `reserve` succeeds. -/
def parse_line (rv : List FilePatch) (line : List Char) :
    Option (Except String (List FilePatch)) :=
  parse_line_in reserve_always rv line

/-- Result of `load_patch`: the patch set, or the parse error that ends the process with
`exit(1)` (with the line number and the line printed after `On line`), or undefined
behaviour. -/
inductive LoadResult where
  | ok (rv : List FilePatch)
  | format_error (lineno : Nat) (line : String) (what : String)
  | undefined
deriving DecidableEq, Repr

/-- The `while(!ifs.eof())` loop of `load_patch` over the lines still to be read, with the
current `rv` and `lineno` (an `unsigned`), in a run where `can_reserve` tells which `reserve`
calls succeed. -/
def load_patch_loop_in (can_reserve : Nat → Bool) :
    List (List Char) → List FilePatch → Nat → LoadResult
  | [], rv, _ => .ok rv
  | raw :: rest, rv, lineno =>
    let lineno := (lineno + 1) % UINT_MOD
    let line := strip_line_end raw
    if line.isEmpty then load_patch_loop_in can_reserve rest rv lineno
    else
      match parse_line_in can_reserve rv line with
      | none => .undefined
      | some (.error e) => .format_error lineno (String.mk line) e
      | some (.ok rv1) => load_patch_loop_in can_reserve rest rv1 lineno

/-- The loop of `load_patch` in a run where every `reserve` succeeds. -/
def load_patch_loop (raws : List (List Char)) (rv : List FilePatch) (lineno : Nat) :
    LoadResult :=
  load_patch_loop_in reserve_always raws rv lineno

/-- The function `load_patch` on the contents `text` of an opened patch file, in a run where
`can_reserve` tells which `reserve` calls succeed. -/
def load_patch_in (can_reserve : Nat → Bool) (text : List Char) : LoadResult :=
  load_patch_loop_in can_reserve (getlines text) [] 0

/-- The function `load_patch` on the contents `text` of an opened patch file, in a run where
every `reserve` succeeds. -/
def load_patch (text : List Char) : LoadResult :=
  load_patch_loop (getlines text) [] 0

/-- The loop of `load_file` on the contents `text` of an opened file: every line read is stripped
and pushed. -/
def load_file_lines (text : List Char) : List String :=
  (getlines text).map (fun raw => String.mk (strip_line_end raw))

/-! ## The driver `main` -/

/-- The struct `Opts` after a successful `Opts::parse`: `patchfile` is set, `base_dir` may be
null. -/
structure Opts where
  patchfile : String
  base_dir : Option String
  dry_run : Bool
deriving DecidableEq, Repr

/-- A file system: the contents of the files that can be opened, by path. -/
abbrev FileSystem := List (String × List Char)

/-- Contents of the file at `path`, when it can be opened. -/
def FileSystem.read (fs : FileSystem) (path : String) : Option (List Char) := fs.lookup path

/-- The file system after `path` was opened for writing and `text` written to it. -/
def FileSystem.write (fs : FileSystem) (path : String) (text : List Char) : FileSystem :=
  (path, text) :: fs.filter (fun e => e.1 ≠ path)

/-- The function `load_file(path)`: the lines of the file, or the message of the exception
thrown when it cannot be opened. -/
def load_file (fs : FileSystem) (path : String) : Except String (List String) :=
  match fs.read path with
  | none => .error ("Unable to open file file: " ++ path)
  | some text => .ok (load_file_lines text)

/-- The text written by the loop `ofs << line << std::endl` over `new_file2`. -/
def write_lines (lines : List String) : List Char :=
  (lines.map (fun line => line.data ++ ['\n'])).flatten

/-- The path `base_dir + "/" + rel.c_str()` built by `main`; appending a null `base_dir` is
undefined behaviour. -/
def make_path (base_dir : Option String) (rel : String) : Option String :=
  match base_dir with
  | none => none
  | some dir => some (dir ++ "/" ++ String.mk (c_str rel.data))

/-- One line of the diagnostic output of `main` about a file. -/
inductive Report where
  | already_patched (path : String)
  | not_clean (path : String)
  | patched (path : String)
  | to_be_patched (path : String)
deriving DecidableEq, Repr

/-- The state of `main` between two files: the file system, the flag `error` and the reports
printed so far. -/
structure DriverState where
  fs : FileSystem
  error : Bool
  reports : List Report
deriving DecidableEq, Repr

/-- How one step of the driver ends: normally, with an exception, or with undefined
behaviour. -/
inductive Outcome where
  | done (st : DriverState)
  | exception (what : String) (st : DriverState)
  | undefined
deriving DecidableEq, Repr

/-- The body of the loop "Iterate all files" of `main` for the file patch `f`, whose fragments
are already sorted. -/
def process_file (opts : Opts) (st : DriverState) (f : FilePatch) : Outcome :=
  if f.fragments.isEmpty then .done st
  else
    match make_path opts.base_dir f.new_path with
    | none => .undefined
    | some new_path =>
    match load_file st.fs new_path with
    | .error e => .exception e st
    | .ok new_file =>
    if is_applied new_file f.fragments then
      .done { st with reports := st.reports ++ [.already_patched new_path] }
    else
      match make_path opts.base_dir f.orig_path with
      | none => .undefined
      | some orig_path =>
      match load_file st.fs orig_path with
      | .error e => .exception e st
      | .ok orig_file =>
      let fragments_applied := get_fragments_applied orig_file f.fragments
      if fragments_applied.isEmpty then
        .done { st with error := true, reports := st.reports ++ [.not_clean orig_path] }
      else
        match apply_fragments orig_file f.fragments fragments_applied with
        | none => .undefined
        | some new_file2 =>
          if !opts.dry_run then
            .done { st with
              fs := st.fs.write new_path (write_lines new_file2)
              reports := st.reports ++ [.patched new_path] }
          else
            .done { st with reports := st.reports ++ [.to_be_patched new_path] }

/-- The loop "Iterate all files" of `main`. -/
def main_loop (opts : Opts) : List FilePatch → DriverState → Outcome
  | [], st => .done st
  | f :: rest, st =>
    match process_file opts st f with
    | .done st1 => main_loop opts rest st1
    | other => other

/-- What a run of `main` leaves behind: the exit status, the file system and the reports. -/
structure MainResult where
  status : Nat
  fs : FileSystem
  reports : List Report
deriving DecidableEq, Repr

/-- The function `main` after the options were parsed, in a run where every `reserve` of the
parser succeeds. The library function `std::sort` is the parameter `sort_fragments`, applied with
the comparison `a.orig_line < b.orig_line`. The result `none` is undefined behaviour. -/
def main (sort_fragments : List PatchFragment → List PatchFragment) (opts : Opts)
    (fs : FileSystem) : Option MainResult :=
  match fs.read opts.patchfile with
  | none => some ⟨1, fs, []⟩
  | some text =>
    match load_patch text with
    | .undefined => none
    | .format_error _ _ _ => some ⟨1, fs, []⟩
    | .ok patch =>
      let patch := patch.map (fun f => { f with fragments := sort_fragments f.fragments })
      match main_loop opts patch ⟨fs, false, []⟩ with
      | .undefined => none
      | .exception _ st => some ⟨1, st.fs, st.reports⟩
      | .done st => some ⟨if st.error then 1 else 0, st.fs, st.reports⟩

/-! ## The patched content, stated from the specification -/

/-- The content `file[cur..s1) ++ new_1 ++ file[e1..s2) ++ ... ++ new_n ++ file[en..end)` that a
list of hunks describes, from the cursor `cur` on: the unchanged lines up to each hunk, the new
lines of the hunk in place of its original lines, and the rest of the file. -/
def patched_content (file : List String) : List PatchFragment → Nat → List String
  | [], cur => file.drop cur
  | frag :: rest, cur =>
    (file.drop cur).take (frag.orig_line - cur) ++ frag.new_contents
      ++ patched_content file rest (frag.orig_line + frag.orig_contents.length)

/-- The hunks are sorted by `orig_line`. -/
def sorted_by_orig_line (fragments : List PatchFragment) : Prop :=
  fragments.Pairwise (fun a b => a.orig_line ≤ b.orig_line)

/-- The original spans `[orig_line, orig_line + len(orig_contents))` of the hunks do not
overlap: each hunk starts at or after the end of the one before it. -/
def non_overlapping : List PatchFragment → Prop
  | [] => True
  | [_] => True
  | a :: b :: rest =>
    a.orig_line + a.orig_contents.length ≤ b.orig_line ∧ non_overlapping (b :: rest)

/-- The starts of a hunk are values of the type `unsigned`. -/
def PatchFragment.in_range (frag : PatchFragment) : Prop :=
  frag.orig_line < UINT_MOD ∧ frag.new_line < UINT_MOD

instance (frag : PatchFragment) : Decidable frag.in_range :=
  inferInstanceAs (Decidable (_ ∧ _))

instance (fragments : List PatchFragment) : Decidable (sorted_by_orig_line fragments) :=
  inferInstanceAs (Decidable (List.Pairwise _ _))

instance non_overlapping_decidable :
    ∀ (fragments : List PatchFragment), Decidable (non_overlapping fragments)
  | [] => isTrue trivial
  | [_] => isTrue trivial
  | a :: b :: rest =>
    have := non_overlapping_decidable (b :: rest)
    inferInstanceAs (Decidable (a.orig_line + a.orig_contents.length ≤ b.orig_line
      ∧ non_overlapping (b :: rest)))

/-- Every `new_line` equals `orig_line` plus `delta`, the sum over the earlier hunks of
`len(new_contents) - len(orig_contents)`; `delta` is the sum for the hunks before the list. -/
def new_starts_consistent : List PatchFragment → Int → Prop
  | [], _ => True
  | frag :: rest, delta =>
    (frag.new_line : Int) = (frag.orig_line : Int) + delta
      ∧ new_starts_consistent rest
          (delta + (frag.new_contents.length : Int) - (frag.orig_contents.length : Int))

instance new_starts_consistent_decidable :
    ∀ (fragments : List PatchFragment) (delta : Int),
      Decidable (new_starts_consistent fragments delta)
  | [], _ => isTrue trivial
  | frag :: rest, delta =>
    have := new_starts_consistent_decidable rest
      (delta + (frag.new_contents.length : Int) - (frag.orig_contents.length : Int))
    inferInstanceAs (Decidable ((frag.new_line : Int) = (frag.orig_line : Int) + delta
      ∧ new_starts_consistent rest
          (delta + (frag.new_contents.length : Int) - (frag.orig_contents.length : Int))))

/-- A line that the `getline` loop returns unchanged when it is written and read back: it holds
no newline and does not end in a carriage return. -/
def clean_line (line : String) : Prop :=
  '\n' ∉ line.data ∧ line.data.getLast? ≠ some '\r'

instance (line : String) : Decidable (clean_line line) :=
  inferInstanceAs (Decidable (_ ∧ _))

/-! ## Hunk body lines, stated from the specification -/

/-- A non-empty text line (no NUL character) that is not recognised as a `---`, `+++` or `@@`
line. -/
def is_body_line (line : List Char) : Prop :=
  line ≠ [] ∧ '\x00' ∉ line
    ∧ ['-', '-', '-'].isPrefixOf line = false
    ∧ ['+', '+', '+'].isPrefixOf line = false
    ∧ ['@', '@'].isPrefixOf line = false

instance (line : List Char) : Decidable (is_body_line line) :=
  inferInstanceAs (Decidable (_ ∧ _))

/-- What a body line does to the open hunk: a leading `+` appends the rest of the line to
`new_contents` only, a leading `-` to `orig_contents` only, a leading space to both, and any other
line changes nothing. -/
def body_line_effect (line : List Char) (frag : PatchFragment) : PatchFragment :=
  match line with
  | '+' :: rest => { frag with new_contents := frag.new_contents ++ [String.mk rest] }
  | '-' :: rest => { frag with orig_contents := frag.orig_contents ++ [String.mk rest] }
  | ' ' :: rest =>
    { frag with
      orig_contents := frag.orig_contents ++ [String.mk rest]
      new_contents := frag.new_contents ++ [String.mk rest] }
  | _ => frag

/-- The ordered list of the `-` and space lines among `lines`, without their first character. -/
def body_orig_lines (lines : List (List Char)) : List String :=
  lines.filterMap (fun line =>
    match line with
    | '-' :: rest => some (String.mk rest)
    | ' ' :: rest => some (String.mk rest)
    | _ => none)

/-- The ordered list of the `+` and space lines among `lines`, without their first character. -/
def body_new_lines (lines : List (List Char)) : List String :=
  lines.filterMap (fun line =>
    match line with
    | '+' :: rest => some (String.mk rest)
    | ' ' :: rest => some (String.mk rest)
    | _ => none)

/-! ## Hunk header lines, stated from the specification -/

/-- A non-empty string of decimal digits. -/
def is_number (ds : List Char) : Prop := ds ≠ [] ∧ ∀ c ∈ ds, isdigit c = true

instance (ds : List Char) : Decidable (is_number ds) :=
  inferInstanceAs (Decidable (_ ∧ _))

/-- A possibly empty run of blanks. -/
def is_blanks (ws : List Char) : Prop := ∀ c ∈ ws, isblank c = true

instance (ws : List Char) : Decidable (is_blanks ws) :=
  inferInstanceAs (Decidable (∀ c ∈ ws, isblank c = true))

/-- The part of a hunk header line after the leading `@@`:
`<ws1>-<a>,<b><ws2>+<c>,<d><ws3>@@<trailing>`, where `da`, `db`, `dc`, `dd` are the digits of the
four integers. -/
def hunk_header_rest (ws1 da db ws2 dc dd ws3 trailing : List Char) : List Char :=
  ws1 ++ '-' :: (da ++ ',' :: (db ++ (ws2 ++ '+' :: (dc ++ ',' :: (dd
    ++ (ws3 ++ '@' :: '@' :: trailing))))))

/-- The hunk header line `@@<ws1>-<a>,<b><ws2>+<c>,<d><ws3>@@<trailing>`. -/
def hunk_header_line (ws1 da db ws2 dc dd ws3 trailing : List Char) : List Char :=
  '@' :: '@' :: hunk_header_rest ws1 da db ws2 dc dd ws3 trailing

/-- Two lines of a patch text that are equal, or that are, once their line end is stripped,
hunk header lines differing only in the digits of the two length fields, both lengths being
numbers that fit the type `long`. -/
def differ_only_in_lengths (raw1 raw2 : List Char) : Prop :=
  raw1 = raw2 ∨
    ∃ ws1 da db1 db2 ws2 dc dd1 dd2 ws3 trailing,
      strip_line_end raw1 = hunk_header_line ws1 da db1 ws2 dc dd1 ws3 trailing
        ∧ strip_line_end raw2 = hunk_header_line ws1 da db2 ws2 dc dd2 ws3 trailing
        ∧ is_blanks ws1 ∧ is_blanks ws2 ∧ is_blanks ws3
        ∧ is_number da ∧ is_number dc
        ∧ is_number db1 ∧ is_number db2 ∧ is_number dd1 ∧ is_number dd2
        ∧ digits_value da ≤ LONG_MAX ∧ digits_value dc ≤ LONG_MAX
        ∧ digits_value db1 ≤ LONG_MAX ∧ digits_value db2 ≤ LONG_MAX
        ∧ digits_value dd1 ≤ LONG_MAX ∧ digits_value dd2 ≤ LONG_MAX

/-- Two lines of a patch text that are equal, or that are hunk header lines differing only in
the digits of the two length fields, and for which the two `reserve` calls of the constructor
have the same outcome in a run where `can_reserve` tells which `reserve` calls succeed: both
succeed for the one line exactly when both succeed for the other. -/
def reserved_alike (can_reserve : Nat → Bool) (raw1 raw2 : List Char) : Prop :=
  raw1 = raw2 ∨
    ∃ ws1 da db1 db2 ws2 dc dd1 dd2 ws3 trailing,
      strip_line_end raw1 = hunk_header_line ws1 da db1 ws2 dc dd1 ws3 trailing
        ∧ strip_line_end raw2 = hunk_header_line ws1 da db2 ws2 dc dd2 ws3 trailing
        ∧ is_blanks ws1 ∧ is_blanks ws2 ∧ is_blanks ws3
        ∧ is_number da ∧ is_number dc
        ∧ is_number db1 ∧ is_number db2 ∧ is_number dd1 ∧ is_number dd2
        ∧ digits_value da ≤ LONG_MAX ∧ digits_value dc ≤ LONG_MAX
        ∧ digits_value db1 ≤ LONG_MAX ∧ digits_value db2 ≤ LONG_MAX
        ∧ digits_value dd1 ≤ LONG_MAX ∧ digits_value dd2 ≤ LONG_MAX
        ∧ (reserve_succeeds can_reserve (digits_value db1 % UINT_MOD)
            && reserve_succeeds can_reserve (digits_value dd1 % UINT_MOD))
          = (reserve_succeeds can_reserve (digits_value db2 % UINT_MOD)
            && reserve_succeeds can_reserve (digits_value dd2 % UINT_MOD))

/-- Two results of `load_patch` agree: the same patch set, or a parse error on the same line
number with the same message, or both undefined. -/
def same_outcome : LoadResult → LoadResult → Prop
  | .ok rv1, .ok rv2 => rv1 = rv2
  | .format_error n1 _ e1, .format_error n2 _ e2 => n1 = n2 ∧ e1 = e2
  | .undefined, .undefined => True
  | _, _ => False

/-! ## The sort step of `main` and the contract of `std::sort` -/

/-- The sort step of `main`: the fragments of every file patch are replaced by the result of
`std::sort`, here the parameter `sort_fragments`. -/
def sort_patch (sort_fragments : List PatchFragment → List PatchFragment)
    (patch : List FilePatch) : List FilePatch :=
  patch.map (fun f => { f with fragments := sort_fragments f.fragments })

/-- Classification of hunks that do not move lines, by content alone: a hunk is not applied
when its original lines match at `orig_line`, applied when they do not and its new lines match at
`new_line`, and the whole classification is unclean (`none`) at the first hunk where neither
matches. -/
def classify_by_content (file : List String) : List PatchFragment → Option (List Bool)
  | [] => some []
  | h :: rest =>
    if sublist_match file h.orig_line h.orig_contents then
      (classify_by_content file rest).map (fun l => false :: l)
    else if sublist_match file h.new_line h.new_contents then
      (classify_by_content file rest).map (fun l => true :: l)
    else none

/-- A file patch that the driver finds unclean in the file system `fs`: it has hunks, its target
file is not already fully patched, and the classification of its original file is the empty
vector. -/
def classified_unclean (opts : Opts) (fs : FileSystem) (f : FilePatch) : Prop :=
  f.fragments ≠ [] ∧
    ∃ new_path orig_path new_file orig_file,
      make_path opts.base_dir f.new_path = some new_path
        ∧ load_file fs new_path = .ok new_file
        ∧ is_applied new_file f.fragments = false
        ∧ make_path opts.base_dir f.orig_path = some orig_path
        ∧ load_file fs orig_path = .ok orig_file
        ∧ get_fragments_applied orig_file f.fragments = []

/-! ## Lemmas on the range matcher -/

theorem sublist_match_loop_iff (target : List String) (offset : Nat) (pattern : List String)
    (i : Nat) :
    sublist_match_loop target offset pattern i = true
      ↔ ∀ j, j < pattern.length → target[offset + i + j]? = pattern[j]? := by
  induction pattern generalizing i with
  | nil => simp [sublist_match_loop]
  | cons p rest ih =>
    unfold sublist_match_loop
    by_cases h : target[offset + i]? = some p
    · simp only [h, ne_eq, not_true_eq_false, if_false, ih]
      constructor
      · intro hall j hj
        cases j with
        | zero => simpa using h
        | succ k =>
          have := hall k (by simpa using hj)
          simpa [Nat.add_assoc, Nat.add_comm 1 k] using this
      · intro hall j hj
        have := hall (j + 1) (by simpa using hj)
        simpa [Nat.add_assoc, Nat.add_comm 1 j] using this
    · simp only [ne_eq, h, not_false_eq_true, if_true, Bool.false_eq_true, false_iff]
      intro hall
      have := hall 0 (by simp)
      exact h (by simpa using this)

theorem sublist_match_iff (target : List String) (offset : Nat) (pattern : List String) :
    sublist_match target offset pattern = true
      ↔ offset < target.length ∧ offset + pattern.length ≤ target.length
        ∧ ∀ j, j < pattern.length → target[offset + j]? = pattern[j]? := by
  unfold sublist_match
  by_cases h1 : offset ≥ target.length
  · simp only [h1, if_true, Bool.false_eq_true, false_iff]
    omega
  · simp only [h1, if_false]
    have hloop := sublist_match_loop_iff target offset pattern 0
    simp only [Nat.add_zero] at hloop
    constructor
    · intro h
      split at h
      · exact absurd h (by simp)
      · have hall := hloop.mp h
        refine ⟨by omega, ?_, hall⟩
        by_cases hp : pattern.length = 0
        · omega
        · have hlast := hall (pattern.length - 1) (by omega)
          have hsome : pattern[pattern.length - 1]? ≠ none := by
            rw [ne_eq, List.getElem?_eq_none_iff]; omega
          rw [← hlast, ne_eq, List.getElem?_eq_none_iff] at hsome
          omega
    · rintro ⟨_, hle, hall⟩
      have hmod : (offset + pattern.length) % SIZE_MOD ≤ target.length :=
        le_trans (Nat.mod_le _ _) hle
      rw [if_neg (by omega)]
      exact hloop.mpr hall

theorem unsigned_add_int_zero (u : Nat) (h : u < UINT_MOD) : unsigned_add_int u 0 = u := by
  unfold unsigned_add_int
  unfold UINT_MOD at h
  rw [Int.add_zero, Int.emod_eq_of_lt (by omega) (by omega)]
  simp

theorem unsigned_add_size_eq (u n : Nat) (h : u + n < SIZE_MOD) : unsigned_add_size u n = u + n := by
  unfold unsigned_add_size
  exact Nat.mod_eq_of_lt h

theorem copy_range_nat (file : List String) (a b : Nat) (hab : a ≤ b) (hb : b ≤ file.length) :
    copy_range file ((a : Int) + 0) ((b : Int) + 0) = some ((file.drop a).take (b - a)) := by
  unfold copy_range
  rw [if_pos (by omega)]
  simp only [Int.add_zero, Int.toNat_ofNat]
  rw [Int.toNat_sub]

/-! ## Lemmas on hunks that are not applied -/

theorem non_overlapping_tail (x : PatchFragment) (rest : List PatchFragment)
    (h : non_overlapping (x :: rest)) : non_overlapping rest := by
  cases rest with
  | nil => trivial
  | cons y ys => exact h.2

theorem non_overlapping_head (x : PatchFragment) (rest : List PatchFragment)
    (h : non_overlapping (x :: rest)) :
    ∀ y ∈ rest.head?, x.orig_line + x.orig_contents.length ≤ y.orig_line := by
  cases rest with
  | nil => intro y hy; simp at hy
  | cons z zs =>
    intro y hy
    simp only [List.head?_cons, Option.mem_def, Option.some.injEq] at hy
    subst hy
    exact h.1

theorem get_fragments_applied_loop_not_applied (file : List String)
    (fragments : List PatchFragment) (acc : List Bool)
    (hr : ∀ h ∈ fragments, h.orig_line < UINT_MOD)
    (hm : ∀ h ∈ fragments, sublist_match file h.orig_line h.orig_contents = true) :
    get_fragments_applied_loop file fragments (0, acc)
      = some (0, acc ++ List.replicate fragments.length false) := by
  induction fragments generalizing acc with
  | nil => simp [get_fragments_applied_loop]
  | cons h rest ih =>
    have h1 : sublist_match file (probe_offset h 0) h.orig_contents = true := by
      unfold probe_offset
      rw [unsigned_add_int_zero _ (hr h (List.mem_cons_self _ _))]
      exact hm h (List.mem_cons_self _ _)
    have hstep : get_fragments_applied_step file (0, acc) h = some (0, acc ++ [false]) := by
      simp [get_fragments_applied_step, h1]
    unfold get_fragments_applied_loop
    rw [hstep]
    simp only
    rw [ih (acc ++ [false]) (fun x hx => hr x (List.mem_cons_of_mem _ hx))
      (fun x hx => hm x (List.mem_cons_of_mem _ hx))]
    simp [List.replicate_succ]

theorem apply_fragments_loop_not_applied (file : List String) (fa : List Bool)
    (hlen : file.length < SIZE_MOD) (fragments : List PatchFragment) (idx : Nat)
    (out : List String) (cur : Nat)
    (hfa : ∀ j, j < fragments.length → fa[idx + j]? = some false)
    (hn : non_overlapping fragments)
    (hm : ∀ h ∈ fragments, sublist_match file h.orig_line h.orig_contents = true)
    (hcur : ∀ h ∈ fragments.head?, cur ≤ h.orig_line)
    (hcurlen : cur ≤ file.length) :
    ∃ out1 cur1, apply_fragments_loop file fa fragments idx out cur 0 = some (out1, cur1, 0)
      ∧ cur1 ≤ file.length
      ∧ out1 ++ file.drop cur1 = out ++ patched_content file fragments cur := by
  induction fragments generalizing idx out cur with
  | nil => exact ⟨out, cur, by simp [apply_fragments_loop], hcurlen, by simp [patched_content]⟩
  | cons h rest ih =>
    have hmh := (sublist_match_iff file h.orig_line h.orig_contents).mp
      (hm h (List.mem_cons_self _ _))
    have hch : cur ≤ h.orig_line := hcur h (by simp)
    have hcopy := copy_range_nat file cur h.orig_line hch (by omega)
    have hidx : fa[idx]? = some false := by simpa using hfa 0 (by simp)
    have hofs : unsigned_add_size h.orig_line h.orig_contents.length
        = h.orig_line + h.orig_contents.length := unsigned_add_size_eq _ _ (by omega)
    obtain ⟨out1, cur1, hloop, hle, heq⟩ := ih (idx + 1)
      (out ++ (file.drop cur).take (h.orig_line - cur) ++ h.new_contents)
      (h.orig_line + h.orig_contents.length)
      (fun j hj => by
        have := hfa (j + 1) (by simpa using hj)
        simpa [Nat.add_assoc, Nat.add_comm 1 j] using this)
      (non_overlapping_tail h rest hn)
      (fun x hx => hm x (List.mem_cons_of_mem _ hx))
      (non_overlapping_head h rest hn)
      hmh.2.1
    refine ⟨out1, cur1, ?_, hle, ?_⟩
    · unfold apply_fragments_loop
      rw [hcopy, hidx]
      simp only [hofs]
      exact hloop
    · rw [heq]
      simp [patched_content, List.append_assoc]

/-! ## Lemmas on the already-patched check -/

/-- The rewriter on a classification without applied hunks: the classification is all `false`
and the output is `patched_content`. -/
theorem apply_fragments_of_all_match (file : List String) (fragments : List PatchFragment)
    (hlen : file.length < SIZE_MOD)
    (hr : ∀ h ∈ fragments, h.in_range)
    (hn : non_overlapping fragments)
    (hm : ∀ h ∈ fragments, sublist_match file h.orig_line h.orig_contents = true) :
    get_fragments_applied file fragments = List.replicate fragments.length false
      ∧ apply_fragments file fragments (get_fragments_applied file fragments)
          = some (patched_content file fragments 0) := by
  have hcls : get_fragments_applied file fragments
      = List.replicate fragments.length false := by
    unfold get_fragments_applied
    rw [get_fragments_applied_loop_not_applied file fragments [] (fun h hh => (hr h hh).1) hm]
    simp
  refine ⟨hcls, ?_⟩
  rw [hcls]
  obtain ⟨out1, cur1, hloop, hle, heq⟩ := apply_fragments_loop_not_applied file
    (List.replicate fragments.length false) hlen fragments 0 [] 0
    (fun j hj => by
      rw [Nat.zero_add, List.getElem?_replicate]
      simp [hj])
    hn hm (fun h _ => Nat.zero_le _) (Nat.zero_le _)
  unfold apply_fragments
  rw [hloop]
  simp only
  have hfin := copy_range_nat file cur1 file.length hle (le_refl _)
  simp only [Int.add_zero] at hfin
  simp only [Int.add_zero, hfin]
  rw [List.take_of_length_le (by simp), heq]
  simp

theorem get_fragments_applied_loop_append (file : List String)
    (pre rest : List PatchFragment) (st : Int × List Bool) :
    get_fragments_applied_loop file (pre ++ rest) st
      = (get_fragments_applied_loop file pre st).bind (get_fragments_applied_loop file rest) := by
  induction pre generalizing st with
  | nil => simp [get_fragments_applied_loop]
  | cons x xs ih =>
    simp only [List.cons_append, get_fragments_applied_loop]
    cases get_fragments_applied_step file st x with
    | none => simp
    | some st1 => simpa using ih st1

/-! ## Lemmas on writing a file and reading it back -/

theorem getlines_from_line (line rest cur : List Char) (h : '\n' ∉ line) :
    getlines_from (line ++ '\n' :: rest) cur = (cur.reverse ++ line) :: getlines_from rest [] := by
  induction line generalizing cur with
  | nil => simp [getlines_from]
  | cons c cs ih =>
    have hc : c ≠ '\n' := fun hc => h (by simp [hc])
    have hcs : '\n' ∉ cs := fun hcs => h (List.mem_cons_of_mem _ hcs)
    rw [List.cons_append, getlines_from, if_neg hc, ih (c :: cur) hcs]
    simp

theorem strip_line_end_clean (line : String) (h : clean_line line) :
    strip_line_end line.data = line.data := by
  obtain ⟨h1, h2⟩ := h
  have hn : line.data.getLast? ≠ some '\n' := by
    intro hl
    exact h1 (List.mem_of_getLast?_eq_some hl)
  unfold strip_line_end pop_back_if
  rw [if_neg hn, if_neg h2]

theorem load_file_lines_write_lines (lines : List String) (h : ∀ l ∈ lines, clean_line l) :
    load_file_lines (write_lines lines) = lines ++ [""] := by
  induction lines with
  | nil => decide
  | cons l ls ih =>
    have hl := h l (List.mem_cons_self _ _)
    have hls := ih (fun x hx => h x (List.mem_cons_of_mem _ hx))
    unfold load_file_lines getlines at hls ⊢
    have hw : write_lines (l :: ls) = l.data ++ '\n' :: write_lines ls := by
      simp [write_lines]
    rw [hw, getlines_from_line _ _ _ hl.1]
    simp only [List.reverse_nil, List.nil_append, List.map_cons, List.cons_append]
    rw [hls, strip_line_end_clean l hl]

theorem sublist_match_append_right (target extra pattern : List String) (offset : Nat)
    (h : sublist_match target offset pattern = true) :
    sublist_match (target ++ extra) offset pattern = true := by
  rw [sublist_match_iff] at h ⊢
  obtain ⟨h1, h2, h3⟩ := h
  refine ⟨by rw [List.length_append]; omega, by rw [List.length_append]; omega, ?_⟩
  intro j hj
  rw [List.getElem?_append_left (by omega)]
  exact h3 j hj

/-- C1, the code at the failing input. On the current file `Z B C D E`, with hunk 1
(`A` to `Z` at line 0) already applied and hunk 2 (`D` to `D2` at line 3) not applied, the
classification is `[true, false]` and the rewriter returns `B C D2 E`: the line `Z` of the applied
hunk is dropped, so the result is not the fully patched content `Z B C D2 E`. A whole run of
`main` on that file writes `B`, `C`, `D2`, `E` and an empty line, reports the file as patched and
returns status 0. -/
theorem partial_application_drops_applied_hunk :
    get_fragments_applied ["Z", "B", "C", "D", "E"]
        [⟨0, 0, ["A"], ["Z"]⟩, ⟨3, 3, ["D"], ["D2"]⟩] = [true, false]
      ∧ apply_fragments ["Z", "B", "C", "D", "E"]
          [⟨0, 0, ["A"], ["Z"]⟩, ⟨3, 3, ["D"], ["D2"]⟩] [true, false]
        = some ["B", "C", "D2", "E"]
      ∧ apply_fragments ["Z", "B", "C", "D", "E"]
          [⟨0, 0, ["A"], ["Z"]⟩, ⟨3, 3, ["D"], ["D2"]⟩] [true, false]
        ≠ some ["Z", "B", "C", "D2", "E"]
      ∧ main id ⟨"p", some "d", false⟩
          [("p", "--- a\n+++ a\n@@ -1,1 +1,1 @@\n-A\n+Z\n@@ -4,1 +4,1 @@\n-D\n+D2\n".data),
            ("d/a", "Z\nB\nC\nD\nE\n".data)]
        = some ⟨0,
            [("d/a", "B\nC\nD2\nE\n\n".data),
              ("p", "--- a\n+++ a\n@@ -1,1 +1,1 @@\n-A\n+Z\n@@ -4,1 +4,1 @@\n-D\n+D2\n".data)],
            [.patched "d/a"]⟩ := by
  decide

/-- C2, the code at the failing input. On the file `X C D` with `H1 = (0, [A, B] -> 0, [X])` and
`H2 = (2, [C] -> 1, [Y])`, the step for `H1` records it as applied and sets the bias to `+1`; the
original lines of `H2` are then tested at offset `2 + 1 = 3`, not at `1` (where they would
match), and the classification is the empty vector, that is unclean. A whole run of `main` on
that file reports it as not clean, writes nothing and returns status 1. On every file, a hunk of
the shape of `H1` that is recorded as applied leaves the bias `+1` and the test of `H2` at
offset `3`. -/
theorem bias_after_shrinking_hunk_is_plus_one :
    get_fragments_applied_step ["X", "C", "D"] (0, []) ⟨0, 0, ["A", "B"], ["X"]⟩
        = some (1, [true])
      ∧ probe_offset ⟨2, 1, ["C"], ["Y"]⟩ 1 = 3
      ∧ sublist_match ["X", "C", "D"] 3 ["C"] = false
      ∧ sublist_match ["X", "C", "D"] 1 ["C"] = true
      ∧ get_fragments_applied ["X", "C", "D"]
          [⟨0, 0, ["A", "B"], ["X"]⟩, ⟨2, 1, ["C"], ["Y"]⟩] = []
      ∧ main id ⟨"p", some "d", false⟩
          [("p", "--- a\n+++ a\n@@ -1,2 +1,1 @@\n-A\n-B\n+X\n@@ -3,1 +2,1 @@\n-C\n+Y\n".data),
            ("d/a", "X\nC\nD\n".data)]
        = some ⟨1,
            [("p", "--- a\n+++ a\n@@ -1,2 +1,1 @@\n-A\n-B\n+X\n@@ -3,1 +2,1 @@\n-C\n+Y\n".data),
              ("d/a", "X\nC\nD\n".data)],
            [.not_clean "d/a"]⟩
      ∧ (∀ (file : List String) (a b x c y : String) (bias : Int),
          get_fragments_applied_step file (0, []) ⟨0, 0, [a, b], [x]⟩ = some (bias, [true]) →
          bias = 1 ∧ probe_offset ⟨2, 1, [c], [y]⟩ bias = 3) := by
  refine ⟨by decide, by decide, by decide, by decide, by decide, by decide, ?_⟩
  intro file a b x c y bias h
  have hb : bias_step 0 ⟨0, 0, [a, b], [x]⟩ = 1 := by
    simp only [bias_step, orig_one_past_end, new_one_past_end, unsigned_add_size,
      List.length_cons, List.length_nil]
    decide
  unfold get_fragments_applied_step at h
  split at h
  · split at h
    · simp only [Option.some.injEq, Prod.mk.injEq] at h
      rw [← h.1, hb]
      refine ⟨rfl, ?_⟩
      simp only [probe_offset, unsigned_add_int]
      decide
    · exact absurd h (by simp)
  · simp at h

/-- C4. For every file and every hunk list sorted by `orig_line` with non-overlapping original
spans in which every hunk's original lines match the file at `orig_line`, every hunk is classified
not-applied and the rewriter returns
`file[0..s1) ++ new_1 ++ file[e1..s2) ++ ... ++ new_n ++ file[en..end)`. -/
theorem rewriter_exact_when_nothing_applied (file : List String)
    (fragments : List PatchFragment)
    (hlen : file.length < SIZE_MOD)
    (hr : ∀ h ∈ fragments, h.in_range)
    (_hs : sorted_by_orig_line fragments)
    (hn : non_overlapping fragments)
    (hm : ∀ h ∈ fragments, sublist_match file h.orig_line h.orig_contents = true) :
    get_fragments_applied file fragments = List.replicate fragments.length false
      ∧ apply_fragments file fragments (get_fragments_applied file fragments)
          = some (patched_content file fragments 0) :=
  apply_fragments_of_all_match file fragments hlen hr hn hm

/-- C4, witness: the file `A B C D` with the hunk `(0, [A, B] -> [X])` yields `X C D`. -/
theorem rewriter_exact_when_nothing_applied_witness :
    patched_content ["A", "B", "C", "D"] [⟨0, 0, ["A", "B"], ["X"]⟩] 0 = ["X", "C", "D"]
      ∧ get_fragments_applied ["A", "B", "C", "D"] [⟨0, 0, ["A", "B"], ["X"]⟩]
          = List.replicate [(⟨0, 0, ["A", "B"], ["X"]⟩ : PatchFragment)].length false
      ∧ apply_fragments ["A", "B", "C", "D"] [⟨0, 0, ["A", "B"], ["X"]⟩]
          (get_fragments_applied ["A", "B", "C", "D"] [⟨0, 0, ["A", "B"], ["X"]⟩])
          = some (patched_content ["A", "B", "C", "D"] [⟨0, 0, ["A", "B"], ["X"]⟩] 0) :=
  ⟨by decide,
    rewriter_exact_when_nothing_applied ["A", "B", "C", "D"] [⟨0, 0, ["A", "B"], ["X"]⟩]
      (by decide) (by decide) (by decide) (by decide) (by decide)⟩

/-- C5. If some hunk `h` of a hunk list `pre ++ h :: post`, when reached with the bias
accumulated over `pre`, has original lines that do not match the file at `orig_line + bias` and new
lines that do not match the file at `new_line`, then `get_fragments_applied` returns the empty
vector; and the driver, for a file patch with these hunks whose original file loads as `file`,
ends the file either as "already patched" or as "NOT CLEAN" with `error` set: in both cases before
the rewriter, with the file system unchanged. -/
theorem unclean_detection (file : List String) (pre : List PatchFragment) (h : PatchFragment)
    (post : List PatchFragment)
    (hbad : ∀ bias fa, get_fragments_applied_loop file pre (0, []) = some (bias, fa) →
      sublist_match file (probe_offset h bias) h.orig_contents = false
        ∧ sublist_match file h.new_line h.new_contents = false) :
    get_fragments_applied file (pre ++ h :: post) = []
      ∧ (∀ (opts : Opts) (st : DriverState) (f : FilePatch) (new_path orig_path : String)
          (new_file : List String),
          f.fragments = pre ++ h :: post →
          make_path opts.base_dir f.new_path = some new_path →
          load_file st.fs new_path = .ok new_file →
          make_path opts.base_dir f.orig_path = some orig_path →
          load_file st.fs orig_path = .ok file →
          process_file opts st f
              = .done { st with reports := st.reports ++ [.already_patched new_path] }
            ∨ process_file opts st f
              = .done { st with
                  error := true, reports := st.reports ++ [.not_clean orig_path] }) := by
  have hcls : get_fragments_applied file (pre ++ h :: post) = [] := by
    unfold get_fragments_applied
    rw [get_fragments_applied_loop_append]
    cases hpre : get_fragments_applied_loop file pre (0, []) with
    | none => rfl
    | some st1 =>
      obtain ⟨h1, h2⟩ := hbad st1.1 st1.2 hpre
      simp [get_fragments_applied_loop, get_fragments_applied_step, h1, h2]
  refine ⟨hcls, ?_⟩
  intro opts st f new_path orig_path new_file hf hnp hnf hop hof
  have hempty : f.fragments.isEmpty = false := by
    rw [hf]
    cases pre <;> rfl
  unfold process_file
  simp only [hempty, Bool.false_eq_true, if_false, hnp, hnf, hop, hof]
  by_cases happ : is_applied new_file f.fragments = true
  · left
    simp [happ]
  · right
    rw [hf] at happ ⊢
    simp [happ, hcls]

/-- C5, witness: the file `Q` with the hunk `(0, [A] -> 0, [X])`, in a file system where
`d/a` holds the text of `Q`. -/
theorem unclean_detection_witness :
    get_fragments_applied ["Q"] ([] ++ (⟨0, 0, ["A"], ["X"]⟩ : PatchFragment) :: []) = []
      ∧ process_file ⟨"p", some "d", false⟩ ⟨[("d/a", "Q".data)], false, []⟩
          ⟨"a", "a", [⟨0, 0, ["A"], ["X"]⟩]⟩
        = .done ⟨[("d/a", "Q".data)], true, [.not_clean "d/a"]⟩ := by
  have hw := unclean_detection ["Q"] [] ⟨0, 0, ["A"], ["X"]⟩ []
    (by
      intro bias fa hst
      simp only [get_fragments_applied_loop, Option.some.injEq, Prod.mk.injEq] at hst
      rw [← hst.1]
      decide)
  exact ⟨hw.1, by decide⟩

/-- C6. For every target, every pattern and every offset (every natural number, so every value
of the `size_t` parameter, among them `0`, `len(target)` and the large values that negative
positions wrap to), `sublist_match` returns `false` whenever `offset + len(pattern)`, as a
mathematical sum, exceeds `len(target)`. -/
theorem sublist_match_false_out_of_bounds (target : List String) (offset : Nat)
    (pattern : List String) (h : offset + pattern.length > target.length) :
    sublist_match target offset pattern = false := by
  cases hm : sublist_match target offset pattern with
  | false => rfl
  | true =>
    have := ((sublist_match_iff target offset pattern).mp hm).2.1
    omega

/-- C6, witness: the offset `2^64 - 1`, which is what position `-1` wraps to. -/
theorem sublist_match_false_out_of_bounds_witness :
    sublist_match ["a", "b"] (2 ^ 64 - 1) ["a"] = false :=
  sublist_match_false_out_of_bounds ["a", "b"] (2 ^ 64 - 1) ["a"] (by decide)

/-- C7, counterexample. The empty pattern at `offset = len(target)` is in bounds and every
element-wise condition holds vacuously, but `sublist_match` returns `false`. -/
theorem sublist_match_empty_pattern_at_end_is_false :
    sublist_match ["a"] 1 [] = false
      ∧ 1 + ([] : List String).length ≤ ["a"].length
      ∧ (∀ i, i < ([] : List String).length → ["a"][1 + i]? = ([] : List String)[i]?) := by
  decide

/-- C7, amended. The call `sublist_match(target, offset, pattern)` returns true if and only if
`offset < len(target)`, `offset + len(pattern) <= len(target)` and `target[offset + i] = pattern[i]`
for every `i < len(pattern)`; so an empty pattern matches at every offset from `0` up to but not
including `len(target)`, and at no other offset. -/
theorem sublist_match_characterisation (target : List String) (offset : Nat)
    (pattern : List String) :
    (sublist_match target offset pattern = true
      ↔ offset < target.length ∧ offset + pattern.length ≤ target.length
        ∧ ∀ i, i < pattern.length → target[offset + i]? = pattern[i]?)
    ∧ (sublist_match target offset [] = true ↔ offset < target.length) := by
  refine ⟨sublist_match_iff target offset pattern, ?_⟩
  rw [sublist_match_iff]
  simp only [List.length_nil, Nat.add_zero, Nat.not_lt_zero, false_implies, implies_true,
    and_true]
  omega

/-! ## Lemmas on the parser -/

theorem nil_or_snoc {α : Type} (l : List α) : l = [] ∨ ∃ init x, l = init ++ [x] := by
  rcases List.eq_nil_or_concat l with h | ⟨init, x, h⟩
  · exact Or.inl h
  · exact Or.inr ⟨init, x, by rw [h, List.concat_eq_append]⟩

theorem getLast?_snoc {α : Type} (init : List α) (x : α) : (init ++ [x]).getLast? = some x := by
  simp

theorem modify_back_concat {α : Type} (g : α → Option α) (init : List α) (x : α) :
    modify_back g (init ++ [x]) = (g x).map (fun y => init ++ [y]) := by
  induction init with
  | nil => simp [modify_back]
  | cons a as ih =>
    cases as with
    | nil =>
      simp only [List.cons_append, List.nil_append, modify_back]
      cases g x <;> simp
    | cons b bs =>
      simp only [List.cons_append] at ih ⊢
      rw [modify_back, ih]
      cases g x <;> simp

theorem modify_back_fragment_concat (g : PatchFragment → PatchFragment)
    (init : List FilePatch) (f : FilePatch) (frs : List PatchFragment) (frag : PatchFragment)
    (hf : f.fragments = frs ++ [frag]) :
    modify_back_fragment g (init ++ [f])
      = some (init ++ [{ f with fragments := frs ++ [g frag] }]) := by
  unfold modify_back_fragment
  rw [modify_back_concat, hf, modify_back_concat]
  simp

theorem modify_back_fragment_no_fragment (g : PatchFragment → PatchFragment)
    (init : List FilePatch) (f : FilePatch) (hf : f.fragments = []) :
    modify_back_fragment g (init ++ [f]) = none := by
  unfold modify_back_fragment
  rw [modify_back_concat, hf]
  simp [modify_back]

theorem c_str_eq_self (line : List Char) (h : '\x00' ∉ line) : c_str line = line := by
  unfold c_str
  rw [List.takeWhile_eq_self_iff]
  intro c hc
  simp only [ne_eq, decide_eq_true_eq]
  intro hc0
  exact h (hc0 ▸ hc)

theorem c_str_cons (c : Char) (r : List Char) (hc : c ≠ '\x00') :
    c_str (c :: r) = c :: c_str r := by
  simp [c_str, List.takeWhile_cons, hc]

theorem c_str_eq_cons (l : List Char) (c : Char) (t : List Char) (h : c_str l = c :: t) :
    ∃ l1, l = c :: l1 ∧ c_str l1 = t := by
  cases l with
  | nil => simp [c_str] at h
  | cons x l1 =>
    by_cases hx : x = '\x00'
    · subst hx
      simp [c_str] at h
    · rw [c_str_cons x l1 hx] at h
      simp only [List.cons.injEq] at h
      exact ⟨l1, by rw [h.1], h.2⟩

theorem c_str_dropWhile_isblank (l : List Char) :
    c_str (l.dropWhile isblank) = (c_str l).dropWhile isblank := by
  induction l with
  | nil => rfl
  | cons c l ih =>
    by_cases hb : isblank c = true
    · have hc : c ≠ '\x00' := by
        intro h0
        subst h0
        exact absurd hb (by decide)
      rw [List.dropWhile_cons, if_pos hb, c_str_cons c l hc, List.dropWhile_cons, if_pos hb, ih]
    · rw [List.dropWhile_cons, if_neg hb]
      by_cases hc : c = '\x00'
      · subst hc
        simp [c_str]
      · rw [c_str_cons c l hc, List.dropWhile_cons, if_neg hb]

theorem load_patch_loop_nil (rv : List FilePatch) (lineno : Nat) :
    load_patch_loop [] rv lineno = .ok rv := rfl

theorem load_patch_loop_cons (raw : List Char) (rest : List (List Char)) (rv : List FilePatch)
    (lineno : Nat) :
    load_patch_loop (raw :: rest) rv lineno =
      if (strip_line_end raw).isEmpty then load_patch_loop rest rv ((lineno + 1) % UINT_MOD)
      else
        match parse_line rv (strip_line_end raw) with
        | none => .undefined
        | some (.error e) =>
          .format_error ((lineno + 1) % UINT_MOD) (String.mk (strip_line_end raw)) e
        | some (.ok rv1) => load_patch_loop rest rv1 ((lineno + 1) % UINT_MOD) := rfl

theorem parse_line_plus (rv : List FilePatch) (line t : List Char)
    (ht : c_str line = '+' :: '+' :: '+' :: t) :
    parse_line rv line =
      match rv.getLast? with
      | none => some (.error "`+++` without preceding ---")
      | some f =>
        if ¬ (f.new_path = "") then some (.error "`+++` without preceding ---")
        else some (.ok (rv.dropLast ++ [{ f with new_path := String.mk (t.dropWhile isblank) }])) := by
  obtain ⟨l1, rfl, h1⟩ := c_str_eq_cons line _ _ ht
  obtain ⟨l2, rfl, h2⟩ := c_str_eq_cons l1 _ _ h1
  obtain ⟨l3, rfl, h3⟩ := c_str_eq_cons l2 _ _ h2
  have hpath : c_str (l3.dropWhile isblank) = t.dropWhile isblank := by
    rw [c_str_dropWhile_isblank, h3]
  rcases nil_or_snoc rv with rfl | ⟨init, f, rfl⟩
  · simp [parse_line, parse_line_in, Parser.create, Parser.try_consume,
      Parser.consume_whitespace, List.isPrefixOf]
  · simp only [parse_line, parse_line_in, Parser.create, Parser.try_consume,
      Parser.consume_whitespace, List.isPrefixOf, hpath]
    simp [modify_back_concat, hpath]

theorem modify_back_fragment_cases (g : PatchFragment → PatchFragment)
    (rv rv1 : List FilePatch) (h : (modify_back_fragment g rv).map Except.ok
      = some (Except.ok rv1 : Except String (List FilePatch))) :
    ∃ init f frs frag, rv = init ++ [f] ∧ f.fragments = frs ++ [frag]
      ∧ rv1 = init ++ [{ f with fragments := frs ++ [g frag] }] := by
  rcases nil_or_snoc rv with rfl | ⟨init, f, rfl⟩
  · simp [modify_back_fragment, modify_back] at h
  · rcases nil_or_snoc f.fragments with hf | ⟨frs, frag, hf⟩
    · rw [modify_back_fragment_no_fragment g init f hf] at h
      simp at h
    · rw [modify_back_fragment_concat g init f frs frag hf] at h
      simp only [Option.map_some', Option.some.injEq, Except.ok.injEq] at h
      exact ⟨init, f, frs, frag, rfl, hf, h.symm⟩

/-- The ways in which a line can change the vector `rv` without an error. -/
theorem parse_line_ok_cases (rv : List FilePatch) (line : List Char) (rv1 : List FilePatch)
    (h : parse_line rv line = some (.ok rv1)) :
    (∃ path, rv1 = rv ++ [FilePatch.create path])
      ∨ (∃ init f np, rv = init ++ [f] ∧ f.new_path = ""
          ∧ rv1 = init ++ [{ f with new_path := np }])
      ∨ (∃ init f frag, rv = init ++ [f] ∧ f.new_path ≠ ""
          ∧ rv1 = init ++ [{ f with fragments := f.fragments ++ [frag] }])
      ∨ (∃ init f frs frag frag1, rv = init ++ [f] ∧ f.fragments = frs ++ [frag]
          ∧ rv1 = init ++ [{ f with fragments := frs ++ [frag1] }])
      ∨ rv1 = rv := by
  unfold parse_line parse_line_in at h
  simp only at h
  split at h
  · left
    simp only [Option.some.injEq, Except.ok.injEq] at h
    exact ⟨_, h.symm⟩
  · split at h
    · right; left
      rcases nil_or_snoc rv with rfl | ⟨init, f, rfl⟩
      · simp at h
      · rw [getLast?_snoc] at h; simp only at h
        split at h
        · simp at h
        · rename_i hnp
          rw [modify_back_concat] at h
          simp only [Option.map_some', Option.some.injEq, Except.ok.injEq] at h
          exact ⟨init, f, _, rfl, by simpa using hnp, h.symm⟩
    · split at h
      · right; right; left
        split at h
        · simp at h
        · simp at h
        · rcases nil_or_snoc rv with rfl | ⟨init, f, rfl⟩
          · simp at h
          · rw [getLast?_snoc] at h; simp only at h
            split at h
            · simp at h
            · rename_i hnp
              split at h
              · simp at h
              · rw [modify_back_concat] at h
                simp only [Option.map_some', Option.some.injEq, Except.ok.injEq] at h
                exact ⟨init, f, _, rfl, hnp, h.symm⟩
      · right; right; right
        split at h
        · left
          obtain ⟨init, f, frs, frag, h1, h2, h3⟩ := modify_back_fragment_cases _ rv rv1 h
          exact ⟨init, f, frs, frag, _, h1, h2, h3⟩
        · left
          obtain ⟨init, f, frs, frag, h1, h2, h3⟩ := modify_back_fragment_cases _ rv rv1 h
          exact ⟨init, f, frs, frag, _, h1, h2, h3⟩
        · left
          obtain ⟨init, f, frs, frag, h1, h2, h3⟩ := modify_back_fragment_cases _ rv rv1 h
          exact ⟨init, f, frs, frag, _, h1, h2, h3⟩
        · right
          simp only [Option.some.injEq, Except.ok.injEq] at h
          exact h.symm

theorem parse_line_body (init : List FilePatch) (f : FilePatch) (frs : List PatchFragment)
    (frag : PatchFragment) (hf : f.fragments = frs ++ [frag]) (line : List Char)
    (hline : is_body_line line) :
    parse_line (init ++ [f]) line
      = some (.ok (init ++ [{ f with fragments := frs ++ [body_line_effect line frag] }])) := by
  obtain ⟨hne, hnul, h1, h2, h3⟩ := hline
  have hc := c_str_eq_self line hnul
  unfold parse_line parse_line_in
  simp only [Parser.create, Parser.try_consume, hc, h1, h2, h3, Bool.false_eq_true, if_false]
  cases line with
  | nil => exact absurd rfl hne
  | cons c rest =>
    simp only [List.head?_cons, List.drop_succ_cons, List.drop_zero]
    split
    · rename_i hc1
      simp only [Option.some.injEq] at hc1
      subst hc1
      rw [modify_back_fragment_concat _ init f frs frag hf]
      rfl
    · rename_i hc1
      simp only [Option.some.injEq] at hc1
      subst hc1
      rw [modify_back_fragment_concat _ init f frs frag hf]
      rfl
    · rename_i hc1
      simp only [Option.some.injEq] at hc1
      subst hc1
      rw [modify_back_fragment_concat _ init f frs frag hf]
      rfl
    · rename_i hp hm hs
      have hp1 : c ≠ '+' := fun hcc => hp (by rw [hcc])
      have hm1 : c ≠ '-' := fun hcc => hm (by rw [hcc])
      have hs1 : c ≠ ' ' := fun hcc => hs (by rw [hcc])
      have heff : body_line_effect (c :: rest) frag = frag := by
        unfold body_line_effect
        split
        · rename_i heq; exact absurd (List.cons.inj heq).1 hp1
        · rename_i heq; exact absurd (List.cons.inj heq).1 hm1
        · rename_i heq; exact absurd (List.cons.inj heq).1 hs1
        · rfl
      rw [heff, ← hf]

theorem body_line_effect_eq (line : List Char) (frag : PatchFragment) :
    body_line_effect line frag
      = { frag with
          orig_contents := frag.orig_contents ++ body_orig_lines [line]
          new_contents := frag.new_contents ++ body_new_lines [line] } := by
  unfold body_line_effect
  split <;> simp_all [body_orig_lines, body_new_lines]

theorem body_orig_lines_cons (line : List Char) (lines : List (List Char)) :
    body_orig_lines (line :: lines) = body_orig_lines [line] ++ body_orig_lines lines := by
  unfold body_orig_lines
  rw [← List.filterMap_append]
  rfl

theorem body_new_lines_cons (line : List Char) (lines : List (List Char)) :
    body_new_lines (line :: lines) = body_new_lines [line] ++ body_new_lines lines := by
  unfold body_new_lines
  rw [← List.filterMap_append]
  rfl

theorem load_patch_loop_body (init : List FilePatch) (op np : String)
    (frs : List PatchFragment) (raws : List (List Char)) :
    ∀ (frag : PatchFragment) (lineno : Nat),
      (∀ raw ∈ raws, is_body_line (strip_line_end raw)) →
      load_patch_loop raws (init ++ [⟨op, np, frs ++ [frag]⟩]) lineno
        = .ok (init ++ [⟨op, np, frs ++ [{ frag with
            orig_contents := frag.orig_contents ++ body_orig_lines (raws.map strip_line_end)
            new_contents := frag.new_contents
              ++ body_new_lines (raws.map strip_line_end) }]⟩]) := by
  induction raws with
  | nil =>
    intro frag lineno _
    simp [load_patch_loop_nil, body_orig_lines, body_new_lines]
  | cons raw rest ih =>
    intro frag lineno hall
    have hraw := hall raw (List.mem_cons_self _ _)
    have hne : (strip_line_end raw).isEmpty = false := by
      cases hs : strip_line_end raw with
      | nil => exact absurd hs hraw.1
      | cons c cs => rfl
    have hstep := parse_line_body init ⟨op, np, frs ++ [frag]⟩ frs frag rfl
      (strip_line_end raw) hraw
    rw [load_patch_loop_cons]
    simp only [hne, Bool.false_eq_true, if_false, hstep]
    rw [ih (body_line_effect (strip_line_end raw) frag) ((lineno + 1) % UINT_MOD)
      (fun x hx => hall x (List.mem_cons_of_mem _ hx))]
    rw [body_line_effect_eq, List.map_cons,
      body_orig_lines_cons (strip_line_end raw) (rest.map strip_line_end),
      body_new_lines_cons (strip_line_end raw) (rest.map strip_line_end)]
    simp only [List.append_assoc]

theorem parse_line_preserves_new_path_invariant (rv : List FilePatch) (line : List Char)
    (rv1 : List FilePatch) (h : parse_line rv line = some (.ok rv1))
    (hinv : ∀ f ∈ rv, f.fragments ≠ [] → f.new_path ≠ "") :
    ∀ f ∈ rv1, f.fragments ≠ [] → f.new_path ≠ "" := by
  rcases parse_line_ok_cases rv line rv1 h with ⟨path, rfl⟩ | ⟨init, f0, np, rfl, hnp, rfl⟩
    | ⟨init, f0, frag, rfl, hnp, rfl⟩ | ⟨init, f0, frs, frag, frag1, rfl, hf, rfl⟩ | rfl
  · intro f hf hfr
    rcases List.mem_append.mp hf with hf | hf
    · exact hinv f hf hfr
    · simp only [List.mem_singleton] at hf
      subst hf
      exact absurd rfl hfr
  · intro f hf hfr
    rcases List.mem_append.mp hf with hf | hf
    · exact hinv f (List.mem_append_left _ hf) hfr
    · simp only [List.mem_singleton] at hf
      subst hf
      have := hinv f0 (by simp) hfr
      exact absurd hnp this
  · intro f hf hfr
    rcases List.mem_append.mp hf with hf | hf
    · exact hinv f (List.mem_append_left _ hf) hfr
    · simp only [List.mem_singleton] at hf
      subst hf
      exact hnp
  · intro f hf1 hfr
    rcases List.mem_append.mp hf1 with hf1 | hf1
    · exact hinv f (List.mem_append_left _ hf1) hfr
    · simp only [List.mem_singleton] at hf1
      subst hf1
      exact hinv f0 (by simp) (by rw [hf]; simp)
  · exact hinv

theorem load_patch_loop_new_path_invariant (raws : List (List Char)) :
    ∀ (rv : List FilePatch) (lineno : Nat) (rv1 : List FilePatch),
      load_patch_loop raws rv lineno = .ok rv1 →
      (∀ f ∈ rv, f.fragments ≠ [] → f.new_path ≠ "") →
      ∀ f ∈ rv1, f.fragments ≠ [] → f.new_path ≠ "" := by
  induction raws with
  | nil =>
    intro rv lineno rv1 h hinv
    rw [load_patch_loop_nil] at h
    simp only [LoadResult.ok.injEq] at h
    subst h
    exact hinv
  | cons raw rest ih =>
    intro rv lineno rv1 h hinv
    rw [load_patch_loop_cons] at h
    split at h
    · exact ih rv _ rv1 h hinv
    · split at h
      · exact absurd h (by simp)
      · exact absurd h (by simp)
      · rename_i rv2 hstep
        exact ih rv2 _ rv1 h
          (parse_line_preserves_new_path_invariant rv _ rv2 hstep hinv)

theorem parse_line_keeps_new_path (rv : List FilePatch) (line : List Char)
    (rv1 : List FilePatch) (h : parse_line rv line = some (.ok rv1)) (i : Nat) (f : FilePatch)
    (hi : rv[i]? = some f) (hnp : f.new_path ≠ "") :
    ∃ f1, rv1[i]? = some f1 ∧ f1.new_path = f.new_path := by
  have hlt : i < rv.length := (List.getElem?_eq_some_iff.mp hi).1
  rcases parse_line_ok_cases rv line rv1 h with ⟨path, rfl⟩ | ⟨init, f0, np, rfl, hnp0, rfl⟩
    | ⟨init, f0, frag, rfl, _, rfl⟩ | ⟨init, f0, frs, frag, frag1, rfl, _, rfl⟩ | rfl
  · exact ⟨f, by rw [List.getElem?_append_left hlt]; exact hi, rfl⟩
  · by_cases hin : i < init.length
    · rw [List.getElem?_append_left hin] at hi ⊢
      exact ⟨f, hi, rfl⟩
    · simp only [List.length_append, List.length_singleton] at hlt
      have hieq : i = init.length := by omega
      subst hieq
      simp only [List.getElem?_concat_length, Option.some.injEq] at hi
      subst hi
      exact absurd hnp0 hnp
  · by_cases hin : i < init.length
    · rw [List.getElem?_append_left hin] at hi ⊢
      exact ⟨f, hi, rfl⟩
    · simp only [List.length_append, List.length_singleton] at hlt
      have hieq : i = init.length := by omega
      subst hieq
      simp only [List.getElem?_concat_length, Option.some.injEq] at hi
      subst hi
      exact ⟨_, List.getElem?_concat_length .., rfl⟩
  · by_cases hin : i < init.length
    · rw [List.getElem?_append_left hin] at hi ⊢
      exact ⟨f, hi, rfl⟩
    · simp only [List.length_append, List.length_singleton] at hlt
      have hieq : i = init.length := by omega
      subst hieq
      simp only [List.getElem?_concat_length, Option.some.injEq] at hi
      subst hi
      exact ⟨_, List.getElem?_concat_length .., rfl⟩
  · exact ⟨f, hi, rfl⟩

theorem load_patch_loop_keeps_new_path (raws : List (List Char)) :
    ∀ (rv : List FilePatch) (lineno : Nat) (rv1 : List FilePatch),
      load_patch_loop raws rv lineno = .ok rv1 →
      ∀ (i : Nat) (f : FilePatch), rv[i]? = some f → f.new_path ≠ "" →
      ∃ f1, rv1[i]? = some f1 ∧ f1.new_path = f.new_path := by
  induction raws with
  | nil =>
    intro rv lineno rv1 h i f hi _
    rw [load_patch_loop_nil] at h
    simp only [LoadResult.ok.injEq] at h
    subst h
    exact ⟨f, hi, rfl⟩
  | cons raw rest ih =>
    intro rv lineno rv1 h i f hi hnp
    rw [load_patch_loop_cons] at h
    split at h
    · exact ih rv _ rv1 h i f hi hnp
    · split at h
      · exact absurd h (by simp)
      · exact absurd h (by simp)
      · rename_i rv2 hstep
        obtain ⟨f2, hi2, hnp2⟩ := parse_line_keeps_new_path rv _ rv2 hstep i f hi hnp
        obtain ⟨f1, hi1, hnp1⟩ := ih rv2 _ rv1 h i f2 hi2 (by rw [hnp2]; exact hnp)
        exact ⟨f1, hi1, by rw [hnp1, hnp2]⟩

theorem body_line_effect_other (line : List Char) (frag : PatchFragment)
    (hp : line.head? ≠ some '+') (hm : line.head? ≠ some '-') (hs : line.head? ≠ some ' ') :
    body_line_effect line frag = frag := by
  unfold body_line_effect
  split <;> simp_all

theorem parse_line_body_without_hunk (rv : List FilePatch) (c : Char) (rest : List Char)
    (hc : c = '+' ∨ c = '-' ∨ c = ' ')
    (h1 : ['-', '-', '-'].isPrefixOf (c :: rest) = false)
    (h2 : ['+', '+', '+'].isPrefixOf (c :: rest) = false)
    (hrv : rv = [] ∨ ∃ init f, rv = init ++ [f] ∧ f.fragments = []) :
    parse_line rv (c :: rest) = none := by
  have h3 : ['@', '@'].isPrefixOf (c :: rest) = false := by
    rcases hc with rfl | rfl | rfl <;> simp [List.isPrefixOf]
  have hmod : ∀ g, modify_back_fragment g rv = none := by
    intro g
    rcases hrv with rfl | ⟨init, f, rfl, hf⟩
    · rfl
    · exact modify_back_fragment_no_fragment g init f hf
  unfold parse_line parse_line_in
  simp only [Parser.create, Parser.try_consume, h1, h2, h3, Bool.false_eq_true, if_false,
    List.head?_cons]
  rcases hc with rfl | rfl | rfl <;> simp [hmod]

/-- C8, the code at the failing input. On the patch text `+X`, whose only line is a body line
with no file patch open, and on the text `--- a`, `+++ b`, `-X`, whose body line comes when the
file patch has no hunk, `load_patch` calls `back()` on an empty vector: the behaviour is
undefined, and no format error with the line number is reported. -/
theorem body_line_without_hunk_is_undefined :
    parse_line [] "+X".data = none
      ∧ parse_line [⟨"a", "b", []⟩] "-X".data = none
      ∧ load_patch "+X\n".data = .undefined
      ∧ load_patch "--- a\n+++ b\n-X\n".data = .undefined
      ∧ (∀ what, load_patch "+X\n".data ≠ .format_error 1 "+X" what) := by
  refine ⟨rfl, rfl, by decide, by decide, ?_⟩
  intro what
  have h : load_patch "+X\n".data = .undefined := by decide
  rw [h]
  exact fun hne => LoadResult.noConfusion hne

/-- C9, counterexample. After `--- a`, the line `+++` sets `new_path` to the empty text and
the following line `+++ b` is accepted and sets it again: the second `+++` line does not fail
although a `+++` line was already read for this file patch, and the patch set with a hunk
attached is returned; the text `--- a` alone is accepted with `new_path` never set. -/
theorem new_path_can_be_set_twice :
    parse_line [FilePatch.create "a"] "+++".data = some (.ok [⟨"a", "", []⟩])
      ∧ parse_line [⟨"a", "", []⟩] "+++ b".data = some (.ok [⟨"a", "b", []⟩])
      ∧ load_patch "--- a\n+++\n+++ b\n@@ -1,1 +1,1 @@\n".data
          = .ok [⟨"a", "b", [⟨0, 0, [], []⟩]⟩]
      ∧ load_patch "--- a\n".data = .ok [⟨"a", "", []⟩] := by
  exact ⟨rfl, rfl, by decide, by decide⟩

/-- C9, amended. A line beginning with `+++` fails with a format error if and only if no file
patch has been opened or `new_path` of the most recently opened file patch is non-empty;
otherwise it sets that `new_path` to the text after the blanks. Hence, over a whole run of
`load_patch`, a hunk is attached only to a file patch whose `new_path` is non-empty, and a
`new_path` that is non-empty is never changed by the lines read later. -/
theorem plus_header_handling :
    (∀ (rv : List FilePatch) (line t : List Char), c_str line = '+' :: '+' :: '+' :: t →
      parse_line rv line =
        match rv.getLast? with
        | none => some (.error "`+++` without preceding ---")
        | some f =>
          if ¬ (f.new_path = "") then some (.error "`+++` without preceding ---")
          else some (.ok
            (rv.dropLast ++ [{ f with new_path := String.mk (t.dropWhile isblank) }])))
    ∧ (∀ (text : List Char) (rv : List FilePatch), load_patch text = .ok rv →
        ∀ f ∈ rv, f.fragments ≠ [] → f.new_path ≠ "")
    ∧ (∀ (raws : List (List Char)) (rv : List FilePatch) (lineno : Nat) (rv1 : List FilePatch),
        load_patch_loop raws rv lineno = .ok rv1 →
        ∀ (i : Nat) (f : FilePatch), rv[i]? = some f → f.new_path ≠ "" →
        ∃ f1, rv1[i]? = some f1 ∧ f1.new_path = f.new_path) := by
  refine ⟨parse_line_plus, ?_, load_patch_loop_keeps_new_path⟩
  intro text rv h
  exact load_patch_loop_new_path_invariant (getlines text) [] 0 rv h
    (fun f hf => absurd hf (List.not_mem_nil f))

/-- C10. While a hunk is open, every non-empty text line that is not recognised as a `---`,
`+++` or `@@` line is dispatched on its first character: `+` appends the rest of the line to
`new_contents` of the current hunk only, `-` to `orig_contents` only, a space to both, and any
other first character leaves the patch set unchanged; so after a sequence of such lines the
hunk's `orig_contents` has grown by the ordered list of the `-` and space lines and its
`new_contents` by the ordered list of the `+` and space lines. -/
theorem hunk_body_dispatch (init : List FilePatch) (f : FilePatch) (frs : List PatchFragment)
    (frag : PatchFragment) (hf : f.fragments = frs ++ [frag]) :
    (∀ line, is_body_line line →
      parse_line (init ++ [f]) line
        = some (.ok (init ++ [{ f with fragments := frs ++ [body_line_effect line frag] }])))
    ∧ (∀ line, is_body_line line →
        line.head? ≠ some '+' → line.head? ≠ some '-' → line.head? ≠ some ' ' →
        parse_line (init ++ [f]) line = some (.ok (init ++ [f])))
    ∧ (∀ (raws : List (List Char)) (lineno : Nat),
        (∀ raw ∈ raws, is_body_line (strip_line_end raw)) →
        load_patch_loop raws (init ++ [f]) lineno
          = .ok (init ++ [{ f with fragments := frs ++ [{ frag with
              orig_contents := frag.orig_contents ++ body_orig_lines (raws.map strip_line_end)
              new_contents := frag.new_contents
                ++ body_new_lines (raws.map strip_line_end) }] }])) := by
  refine ⟨fun line hline => parse_line_body init f frs frag hf line hline, ?_, ?_⟩
  · intro line hline hp hm hs
    rw [parse_line_body init f frs frag hf line hline, body_line_effect_other line frag hp hm hs,
      ← hf]
  · intro raws lineno hall
    obtain ⟨op, np, frags⟩ := f
    simp only at hf
    subst hf
    exact load_patch_loop_body init op np frs raws frag lineno hall

/-- C10, witness: the lines `-A`, `+X`, ` C` and `\ No newline` read while the hunk
`@@ -1,2 +1,2 @@` of the file patch `a -> b` is open. -/
theorem hunk_body_dispatch_witness :
    load_patch_loop ["-A".data, "+X".data, " C".data, "\\ No newline".data]
        [⟨"a", "b", [⟨0, 0, [], []⟩]⟩] 3
      = .ok [⟨"a", "b", [⟨0, 0, ["A", "C"], ["X", "C"]⟩]⟩] :=
  ((hunk_body_dispatch [] ⟨"a", "b", [⟨0, 0, [], []⟩]⟩ [] ⟨0, 0, [], []⟩ rfl).2.2
    ["-A".data, "+X".data, " C".data, "\\ No newline".data] 3 (by decide)).trans (by decide)

/-! ## Lemmas on hunk header lines -/

theorem isdigit_of_isblank (c : Char) (h : isblank c = true) : isdigit c = false := by
  simp only [isblank, Bool.or_eq_true, decide_eq_true_eq] at h
  rcases h with rfl | rfl <;> decide

theorem dropWhile_blanks (ws : List Char) (c : Char) (r : List Char) (hws : is_blanks ws)
    (hc : isblank c = false) : (ws ++ c :: r).dropWhile isblank = c :: r := by
  induction ws with
  | nil => simp [List.dropWhile, hc]
  | cons w ws ih =>
    have hw : isblank w = true := hws w (List.mem_cons_self _ _)
    rw [List.cons_append, List.dropWhile_cons, if_pos hw]
    exact ih (fun x hx => hws x (List.mem_cons_of_mem _ hx))

theorem head_blanks_not_digit (ws : List Char) (x : Char) (r : List Char) (hws : is_blanks ws)
    (hx : isdigit x = false) : ∀ c ∈ (ws ++ x :: r).head?, isdigit c = false := by
  intro c hc
  cases ws with
  | nil =>
    simp only [List.nil_append, List.head?_cons, Option.mem_def, Option.some.injEq] at hc
    rw [← hc]; exact hx
  | cons w ws =>
    simp only [List.cons_append, List.head?_cons, Option.mem_def, Option.some.injEq] at hc
    rw [← hc]
    exact isdigit_of_isblank w (hws w (List.mem_cons_self _ _))

theorem consume_while_loop_digits (ds rest : List Char) (hds : ∀ c ∈ ds, isdigit c = true)
    (hrest : ∀ c ∈ rest.head?, isdigit c = false) :
    consume_while_loop isdigit (ds ++ rest) = some rest := by
  induction ds with
  | nil =>
    cases rest with
    | nil => rfl
    | cons c r =>
      have hc : isdigit c = false := hrest c (by simp)
      simp [consume_while_loop, hc]
  | cons d ds ih =>
    have hd : isdigit d = true := hds d (List.mem_cons_self _ _)
    rw [List.cons_append, consume_while_loop, if_pos hd]
    exact ih (fun x hx => hds x (List.mem_cons_of_mem _ hx))

theorem read_int_number (ds rest : List Char) (hds : is_number ds)
    (hval : digits_value ds ≤ LONG_MAX) (hrest : ∀ c ∈ rest.head?, isdigit c = false) :
    Parser.read_int ⟨ds ++ rest⟩ = some (.ok (digits_value ds % UINT_MOD, ⟨rest⟩)) := by
  obtain ⟨hne, hall⟩ := hds
  cases ds with
  | nil => exact absurd rfl hne
  | cons d ds =>
    have hd : isdigit d = true := hall d (List.mem_cons_self _ _)
    have hloop := consume_while_loop_digits ds rest
      (fun x hx => hall x (List.mem_cons_of_mem _ hx)) hrest
    have htake : (d :: ds ++ rest).take ((d :: ds ++ rest).length - rest.length) = d :: ds := by
      have : (d :: ds ++ rest).length - rest.length = (d :: ds).length := by
        simp only [List.cons_append, List.length_cons, List.length_append]
        omega
      rw [this, List.take_left']
      rfl
    unfold Parser.read_int Parser.consume_while
    simp only [List.cons_append, hloop, hd, Option.map_some']
    simp only [List.cons_append] at htake
    rw [htake, if_neg (by omega)]

theorem expect_consume_char (c : Char) (r : List Char) :
    Parser.expect_consume ⟨c :: r⟩ [c] = .ok ⟨r⟩ := by
  simp [Parser.expect_consume, List.isPrefixOf]

theorem parse_hunk_header_form (ws1 da db ws2 dc dd ws3 rest : List Char)
    (h1 : is_blanks ws1) (h2 : is_blanks ws2) (h3 : is_blanks ws3)
    (ha : is_number da) (hb : is_number db) (hc : is_number dc) (hd : is_number dd)
    (va : digits_value da ≤ LONG_MAX) (vb : digits_value db ≤ LONG_MAX)
    (vc : digits_value dc ≤ LONG_MAX) (vd : digits_value dd ≤ LONG_MAX) :
    parse_hunk_header ⟨hunk_header_rest ws1 da db ws2 dc dd ws3 rest⟩
      = some (.ok (digits_value da % UINT_MOD, digits_value db % UINT_MOD,
          digits_value dc % UINT_MOD, digits_value dd % UINT_MOD)) := by
  have e1 := dropWhile_blanks ws1 '-'
    (da ++ ',' :: (db ++ (ws2 ++ '+' :: (dc ++ ',' :: (dd ++ (ws3 ++ '@' :: '@' :: rest))))))
    h1 (by decide)
  have r1 := read_int_number da
    (',' :: (db ++ (ws2 ++ '+' :: (dc ++ ',' :: (dd ++ (ws3 ++ '@' :: '@' :: rest))))))
    ha va (by intro c hc; simp at hc; rw [← hc]; decide)
  have r2 := read_int_number db (ws2 ++ '+' :: (dc ++ ',' :: (dd ++ (ws3 ++ '@' :: '@' :: rest))))
    hb vb (head_blanks_not_digit ws2 '+' _ h2 (by decide))
  have e2 := dropWhile_blanks ws2 '+' (dc ++ ',' :: (dd ++ (ws3 ++ '@' :: '@' :: rest)))
    h2 (by decide)
  have r3 := read_int_number dc (',' :: (dd ++ (ws3 ++ '@' :: '@' :: rest)))
    hc vc (by intro c hc; simp at hc; rw [← hc]; decide)
  have r4 := read_int_number dd (ws3 ++ '@' :: '@' :: rest)
    hd vd (head_blanks_not_digit ws3 '@' _ h3 (by decide))
  have e3 := dropWhile_blanks ws3 '@' ('@' :: rest) h3 (by decide)
  unfold parse_hunk_header hunk_header_rest
  simp only [Parser.consume_whitespace, e1, expect_consume_char, r1, r2, e2, r3, r4, e3]
  simp [Parser.expect_consume, List.isPrefixOf]

/-- What `parse_line_in` does on a hunk header line: after the header is read and the last file
patch is found to have a `new_path`, the hunk is constructed from the four integers and attached
to that file patch; an exception of the constructor is the result of the line. -/
theorem parse_line_in_hunk_header (can_reserve : Nat → Bool) (rv : List FilePatch)
    (ws1 da db ws2 dc dd ws3 trailing : List Char)
    (h1 : is_blanks ws1) (h2 : is_blanks ws2) (h3 : is_blanks ws3)
    (ha : is_number da) (hb : is_number db) (hc : is_number dc) (hd : is_number dd)
    (va : digits_value da ≤ LONG_MAX) (vb : digits_value db ≤ LONG_MAX)
    (vc : digits_value dc ≤ LONG_MAX) (vd : digits_value dd ≤ LONG_MAX) :
    parse_line_in can_reserve rv (hunk_header_line ws1 da db ws2 dc dd ws3 trailing) =
      match rv.getLast? with
      | none => some (.error "@@ without preceding header")
      | some f =>
        if f.new_path = "" then some (.error "@@ without preceding header")
        else
          match PatchFragment.construct can_reserve (digits_value da % UINT_MOD)
            (digits_value db % UINT_MOD) (digits_value dc % UINT_MOD)
            (digits_value dd % UINT_MOD) with
          | .error e => some (.error e)
          | .ok frag =>
            some (.ok (rv.dropLast ++ [{ f with fragments := f.fragments ++ [frag] }])) := by
  have hp := parse_hunk_header_form ws1 da db ws2 dc dd ws3 trailing
    h1 h2 h3 ha hb hc hd va vb vc vd
  unfold parse_line_in
  simp only [Parser.create]
  unfold hunk_header_line
  simp only [Parser.try_consume, List.isPrefixOf, List.length_cons, List.length_nil,
    List.drop_succ_cons, List.drop_zero]
  simp only [Char.reduceBEq, Bool.false_and, Bool.false_eq_true, if_false, Bool.true_and,
    Bool.and_self, if_true, hp]
  rcases nil_or_snoc rv with rfl | ⟨init, f, rfl⟩
  · rfl
  · rw [getLast?_snoc]
    simp only [modify_back_concat, List.dropLast_concat]
    by_cases hf : f.new_path = ""
    · simp [hf]
    · simp only [hf, if_false]
      cases PatchFragment.construct can_reserve (digits_value da % UINT_MOD)
        (digits_value db % UINT_MOD) (digits_value dc % UINT_MOD)
        (digits_value dd % UINT_MOD) <;> rfl

theorem construct_ok (can_reserve : Nat → Bool) (a b c d : Nat)
    (hb : reserve_succeeds can_reserve b = true) (hd : reserve_succeeds can_reserve d = true) :
    PatchFragment.construct can_reserve a b c d = .ok (PatchFragment.create a b c d) := by
  simp [PatchFragment.construct, hb, hd]

theorem construct_error (can_reserve : Nat → Bool) (a b c d : Nat)
    (h : reserve_succeeds can_reserve b = false ∨ reserve_succeeds can_reserve d = false) :
    PatchFragment.construct can_reserve a b c d = .error "std::bad_alloc" := by
  rcases h with h | h <;> simp [PatchFragment.construct, h]

theorem construct_congr (can_reserve : Nat → Bool) (a b1 b2 c d1 d2 : Nat)
    (h : (reserve_succeeds can_reserve b1 && reserve_succeeds can_reserve d1)
      = (reserve_succeeds can_reserve b2 && reserve_succeeds can_reserve d2)) :
    PatchFragment.construct can_reserve a b1 c d1
      = PatchFragment.construct can_reserve a b2 c d2 := by
  simp only [PatchFragment.construct, h, PatchFragment.create]

/-! ## From the result of the header parser back to the form of the line -/

theorem expect_consume_ok (p p1 : Parser) (v : List Char)
    (h : p.expect_consume v = .ok p1) : p.l = v ++ p1.l := by
  unfold Parser.expect_consume at h
  split at h
  · rename_i hpre
    obtain ⟨t, ht⟩ := List.isPrefixOf_iff_prefix.mp hpre
    simp only [Except.ok.injEq] at h
    rw [← h, ← ht]
    simp
  · exact absurd h (by simp)

theorem consume_while_loop_isdigit (l : List Char) :
    ∃ ds, (∀ c ∈ ds, isdigit c = true) ∧ consume_while_loop isdigit l = some (l.drop ds.length)
      ∧ l = ds ++ l.drop ds.length := by
  induction l with
  | nil => exact ⟨[], by simp, by decide, rfl⟩
  | cons c cs ih =>
    by_cases hc : isdigit c = true
    · obtain ⟨ds, hds, hl, hsplit⟩ := ih
      refine ⟨c :: ds, ?_, ?_, ?_⟩
      · intro x hx
        rcases List.mem_cons.mp hx with rfl | hx
        · exact hc
        · exact hds x hx
      · rw [consume_while_loop, if_pos hc, hl]
        rfl
      · simp only [List.length_cons, List.drop_succ_cons, List.cons_append]
        rw [← hsplit]
    · refine ⟨[], by simp, ?_, rfl⟩
      rw [consume_while_loop, if_neg hc]
      rfl

theorem read_int_ne_none (p : Parser) : p.read_int ≠ none := by
  obtain ⟨l⟩ := p
  cases l with
  | nil =>
    unfold Parser.read_int Parser.consume_while
    simp only
    have h0 : isdigit '\x00' = false := by decide
    simp [h0]
  | cons c cs =>
    obtain ⟨ds, _, hl, _⟩ := consume_while_loop_isdigit cs
    unfold Parser.read_int Parser.consume_while
    simp only [hl, Option.map_some']
    cases hc : isdigit c
    · simp
    · simp only
      split <;> simp

theorem read_int_ok (p p1 : Parser) (n : Nat) (h : p.read_int = some (.ok (n, p1))) :
    ∃ ds, is_number ds ∧ digits_value ds ≤ LONG_MAX ∧ p.l = ds ++ p1.l
      ∧ n = digits_value ds % UINT_MOD := by
  obtain ⟨l⟩ := p
  cases l with
  | nil =>
    unfold Parser.read_int Parser.consume_while at h
    have h0 : isdigit '\x00' = false := by decide
    simp [h0] at h
  | cons c cs =>
    obtain ⟨ds, hds, hl, hsplit⟩ := consume_while_loop_isdigit cs
    unfold Parser.read_int Parser.consume_while at h
    simp only [hl, Option.map_some'] at h
    cases hc : isdigit c
    · simp [hc] at h
    · simp only [hc] at h
      have htake : (c :: cs).take ((c :: cs).length - (cs.drop ds.length).length) = c :: ds := by
        have hlen : cs.length = ds.length + (cs.drop ds.length).length := by
          conv_lhs => rw [hsplit]
          simp
        have : (c :: cs).length - (cs.drop ds.length).length = (c :: ds).length := by
          simp only [List.length_cons]
          omega
        rw [this]
        conv_lhs => rw [hsplit]
        rw [← List.cons_append, List.take_left']
        rfl
      rw [htake] at h
      split at h
      · simp at h
      · rename_i hle
        simp only [Option.some.injEq, Except.ok.injEq, Prod.mk.injEq] at h
        refine ⟨c :: ds, ⟨by simp, ?_⟩, by omega, ?_, h.1.symm⟩
        · intro x hx
          rcases List.mem_cons.mp hx with rfl | hx
          · exact hc
          · exact hds x hx
        · rw [← h.2]
          simp only [List.cons_append]
          rw [← hsplit]

theorem dropWhile_isblank_split (l : List Char) :
    ∃ ws, is_blanks ws ∧ l = ws ++ l.dropWhile isblank := by
  refine ⟨l.takeWhile isblank, ?_, (List.takeWhile_append_dropWhile isblank l).symm⟩
  intro c hc
  exact List.mem_takeWhile_imp hc

theorem parse_hunk_header_ne_none (p : Parser) : parse_hunk_header p ≠ none := by
  intro h
  unfold parse_hunk_header at h
  simp only at h
  repeat (first
    | (split at h)
    | (rename_i hr; exact absurd hr (read_int_ne_none _))
    | (exact absurd h (by simp)))

theorem parse_hunk_header_ok (p : Parser) (a b c d : Nat)
    (h : parse_hunk_header p = some (.ok (a, b, c, d))) :
    ∃ ws1 da db ws2 dc dd ws3 trailing,
      p.l = hunk_header_rest ws1 da db ws2 dc dd ws3 trailing
        ∧ is_blanks ws1 ∧ is_blanks ws2 ∧ is_blanks ws3
        ∧ is_number da ∧ is_number db ∧ is_number dc ∧ is_number dd
        ∧ digits_value da ≤ LONG_MAX ∧ digits_value db ≤ LONG_MAX
        ∧ digits_value dc ≤ LONG_MAX ∧ digits_value dd ≤ LONG_MAX
        ∧ a = digits_value da % UINT_MOD ∧ b = digits_value db % UINT_MOD
        ∧ c = digits_value dc % UINT_MOD ∧ d = digits_value dd % UINT_MOD := by
  unfold parse_hunk_header at h
  simp only at h
  split at h
  · exact absurd h (by simp)
  rename_i p1 e1
  split at h
  · exact absurd h (by simp)
  · exact absurd h (by simp)
  rename_i a0 p2 r1
  split at h
  · exact absurd h (by simp)
  rename_i p3 e2
  split at h
  · exact absurd h (by simp)
  · exact absurd h (by simp)
  rename_i b0 p4 r2
  split at h
  · exact absurd h (by simp)
  rename_i p5 e3
  split at h
  · exact absurd h (by simp)
  · exact absurd h (by simp)
  rename_i c0 p6 r3
  split at h
  · exact absurd h (by simp)
  rename_i p7 e4
  split at h
  · exact absurd h (by simp)
  · exact absurd h (by simp)
  rename_i d0 p8 r4
  split at h
  · exact absurd h (by simp)
  rename_i p9 e5
  simp only [Option.some.injEq, Except.ok.injEq, Prod.mk.injEq] at h
  obtain ⟨rfl, rfl, rfl, rfl⟩ := h
  obtain ⟨ws1, hw1, s1⟩ := dropWhile_isblank_split p.l
  have x1 := expect_consume_ok _ _ _ e1
  obtain ⟨da, ha, va, y1, ea⟩ := read_int_ok _ _ _ r1
  have x2 := expect_consume_ok _ _ _ e2
  obtain ⟨db, hb, vb, y2, eb⟩ := read_int_ok _ _ _ r2
  obtain ⟨ws2, hw2, s2⟩ := dropWhile_isblank_split p4.l
  have x3 := expect_consume_ok _ _ _ e3
  obtain ⟨dc, hc, vc, y3, ec⟩ := read_int_ok _ _ _ r3
  have x4 := expect_consume_ok _ _ _ e4
  obtain ⟨dd, hd, vd, y4, ed⟩ := read_int_ok _ _ _ r4
  obtain ⟨ws3, hw3, s3⟩ := dropWhile_isblank_split p8.l
  have x5 := expect_consume_ok _ _ _ e5
  simp only [Parser.consume_whitespace] at x1 x3 x5
  refine ⟨ws1, da, db, ws2, dc, dd, ws3, p9.l, ?_, hw1, hw2, hw3, ha, hb, hc, hd, va, vb, vc, vd,
    ea, eb, ec, ed⟩
  unfold hunk_header_rest
  rw [s1, x1, y1, x2, y2, s2, x3, y3, x4, y4, s3, x5]
  simp

/-- A line that begins with `@@` is never undefined, and when it is accepted it has the form of
a hunk header line, the last file patch has a `new_path`, and the constructor has succeeded. -/
theorem parse_line_in_at (can_reserve : Nat → Bool) (rv : List FilePatch) (rest : List Char) :
    parse_line_in can_reserve rv ('@' :: '@' :: rest) ≠ none
    ∧ ∀ rv1, parse_line_in can_reserve rv ('@' :: '@' :: rest) = some (.ok rv1) →
      (∃ ws1 da db ws2 dc dd ws3 trailing,
        rest = hunk_header_rest ws1 da db ws2 dc dd ws3 trailing
          ∧ is_blanks ws1 ∧ is_blanks ws2 ∧ is_blanks ws3
          ∧ is_number da ∧ is_number db ∧ is_number dc ∧ is_number dd
          ∧ reserve_succeeds can_reserve (digits_value db % UINT_MOD) = true
          ∧ reserve_succeeds can_reserve (digits_value dd % UINT_MOD) = true)
      ∧ ∃ init f, rv = init ++ [f] ∧ f.new_path ≠ "" := by
  have hunf : parse_line_in can_reserve rv ('@' :: '@' :: rest) =
      match parse_hunk_header ⟨rest⟩ with
      | none => none
      | some (.error e) => some (.error e)
      | some (.ok (orig_line, orig_len, new_line, new_len)) =>
        match rv.getLast? with
        | none => some (.error "@@ without preceding header")
        | some f =>
          if f.new_path = "" then some (.error "@@ without preceding header")
          else
            match PatchFragment.construct can_reserve orig_line orig_len new_line new_len with
            | .error e => some (.error e)
            | .ok frag =>
              modify_back (fun f => some { f with fragments := f.fragments ++ [frag] }) rv
                |>.map .ok := by
    unfold parse_line_in
    simp [Parser.create, Parser.try_consume, List.isPrefixOf]
  rw [hunf]
  cases hp : parse_hunk_header ⟨rest⟩ with
  | none => exact absurd hp (parse_hunk_header_ne_none _)
  | some r =>
    cases r with
    | error e => simp
    | ok v =>
      obtain ⟨a, b, c, d⟩ := v
      obtain ⟨ws1, da, db, ws2, dc, dd, ws3, trailing, hl, hw1, hw2, hw3, ha, hb, hc, hd, _, _, _,
        _, rfl, rfl, rfl, rfl⟩ := parse_hunk_header_ok _ _ _ _ _ hp
      simp only at hl
      rcases nil_or_snoc rv with rfl | ⟨init, f, rfl⟩
      · simp
      · simp only [getLast?_snoc, modify_back_concat]
        by_cases hf : f.new_path = ""
        · simp [hf]
        · simp only [hf, if_false]
          cases hcon : PatchFragment.construct can_reserve (digits_value da % UINT_MOD)
            (digits_value db % UINT_MOD) (digits_value dc % UINT_MOD)
            (digits_value dd % UINT_MOD) with
          | error e => simp
          | ok frag =>
            refine ⟨by simp, fun rv1 _ => ⟨⟨ws1, da, db, ws2, dc, dd, ws3, trailing, hl, hw1, hw2,
              hw3, ha, hb, hc, hd, ?_, ?_⟩, init, f, rfl, hf⟩⟩
            · unfold PatchFragment.construct at hcon
              split at hcon
              · rename_i hres
                simp only [Bool.and_eq_true] at hres
                exact hres.1
              · exact absurd hcon (by simp)
            · unfold PatchFragment.construct at hcon
              split at hcon
              · rename_i hres
                simp only [Bool.and_eq_true] at hres
                exact hres.2
              · exact absurd hcon (by simp)

theorem same_outcome_refl (r : LoadResult) : same_outcome r r := by
  cases r <;> simp [same_outcome]

theorem load_patch_loop_in_cons (can_reserve : Nat → Bool) (raw : List Char)
    (rest : List (List Char)) (rv : List FilePatch) (lineno : Nat) :
    load_patch_loop_in can_reserve (raw :: rest) rv lineno =
      if (strip_line_end raw).isEmpty then
        load_patch_loop_in can_reserve rest rv ((lineno + 1) % UINT_MOD)
      else
        match parse_line_in can_reserve rv (strip_line_end raw) with
        | none => .undefined
        | some (.error e) =>
          .format_error ((lineno + 1) % UINT_MOD) (String.mk (strip_line_end raw)) e
        | some (.ok rv1) => load_patch_loop_in can_reserve rest rv1 ((lineno + 1) % UINT_MOD) :=
  rfl

theorem parse_line_in_lengths (can_reserve : Nat → Bool) (rv : List FilePatch)
    (ws1 da db1 db2 ws2 dc dd1 dd2 ws3 trailing : List Char)
    (h1 : is_blanks ws1) (h2 : is_blanks ws2) (h3 : is_blanks ws3)
    (ha : is_number da) (hc : is_number dc)
    (hb1 : is_number db1) (hb2 : is_number db2) (hd1 : is_number dd1) (hd2 : is_number dd2)
    (va : digits_value da ≤ LONG_MAX) (vc : digits_value dc ≤ LONG_MAX)
    (vb1 : digits_value db1 ≤ LONG_MAX) (vb2 : digits_value db2 ≤ LONG_MAX)
    (vd1 : digits_value dd1 ≤ LONG_MAX) (vd2 : digits_value dd2 ≤ LONG_MAX)
    (hres : (reserve_succeeds can_reserve (digits_value db1 % UINT_MOD)
        && reserve_succeeds can_reserve (digits_value dd1 % UINT_MOD))
      = (reserve_succeeds can_reserve (digits_value db2 % UINT_MOD)
        && reserve_succeeds can_reserve (digits_value dd2 % UINT_MOD))) :
    parse_line_in can_reserve rv (hunk_header_line ws1 da db1 ws2 dc dd1 ws3 trailing)
      = parse_line_in can_reserve rv (hunk_header_line ws1 da db2 ws2 dc dd2 ws3 trailing) := by
  rw [parse_line_in_hunk_header can_reserve rv ws1 da db1 ws2 dc dd1 ws3 trailing h1 h2 h3 ha hb1
      hc hd1 va vb1 vc vd1,
    parse_line_in_hunk_header can_reserve rv ws1 da db2 ws2 dc dd2 ws3 trailing h1 h2 h3 ha hb2
      hc hd2 va vb2 vc vd2,
    construct_congr can_reserve _ _ _ _ _ _ hres]

theorem load_patch_loop_in_lengths (can_reserve : Nat → Bool) (raws1 raws2 : List (List Char))
    (h : List.Forall₂ (reserved_alike can_reserve) raws1 raws2) :
    ∀ (rv : List FilePatch) (lineno : Nat),
      same_outcome (load_patch_loop_in can_reserve raws1 rv lineno)
        (load_patch_loop_in can_reserve raws2 rv lineno) := by
  induction h with
  | nil => intro rv lineno; exact same_outcome_refl _
  | @cons raw1 raw2 rest1 rest2 hr _ ih =>
    intro rv lineno
    rcases hr with rfl | ⟨ws1, da, db1, db2, ws2, dc, dd1, dd2, ws3, trailing, e1, e2, h1, h2,
      h3, ha, hc, hb1, hb2, hd1, hd2, va, vc, vb1, vb2, vd1, vd2, hres⟩
    · rw [load_patch_loop_in_cons, load_patch_loop_in_cons]
      by_cases hne : (strip_line_end raw1).isEmpty = true
      · simp only [hne, if_true]
        exact ih rv _
      · simp only [hne, if_false]
        cases parse_line_in can_reserve rv (strip_line_end raw1) with
        | none => simp [same_outcome]
        | some r =>
          cases r with
          | error e => simp [same_outcome]
          | ok rv1 => exact ih rv1 _
    · have hp := parse_line_in_lengths can_reserve rv ws1 da db1 db2 ws2 dc dd1 dd2 ws3 trailing
        h1 h2 h3 ha hc hb1 hb2 hd1 hd2 va vc vb1 vb2 vd1 vd2 hres
      rw [load_patch_loop_in_cons, load_patch_loop_in_cons]
      simp only [e1, e2, hp]
      have hne1 : (hunk_header_line ws1 da db1 ws2 dc dd1 ws3 trailing).isEmpty = false := rfl
      have hne2 : (hunk_header_line ws1 da db2 ws2 dc dd2 ws3 trailing).isEmpty = false := rfl
      simp only [hne1, hne2, Bool.false_eq_true, if_false]
      cases parse_line_in can_reserve rv
        (hunk_header_line ws1 da db2 ws2 dc dd2 ws3 trailing) with
      | none => simp [same_outcome]
      | some r =>
        cases r with
        | error e => simp [same_outcome]
        | ok rv1 => exact ih rv1 _

/-! ## Lemmas on the sort step -/

theorem main_uses_sort_patch (sort_fragments : List PatchFragment → List PatchFragment)
    (opts : Opts) (fs : FileSystem) (text : List Char) (patch : List FilePatch)
    (hread : fs.read opts.patchfile = some text) (hload : load_patch text = .ok patch) :
    main sort_fragments opts fs =
      match main_loop opts (sort_patch sort_fragments patch) ⟨fs, false, []⟩ with
      | .undefined => none
      | .exception _ st => some ⟨1, st.fs, st.reports⟩
      | .done st => some ⟨if st.error then 1 else 0, st.fs, st.reports⟩ := by
  unfold main
  rw [hread]
  simp only [hload]
  rfl

theorem process_file_error (opts : Opts) (st st1 : DriverState) (f : FilePatch)
    (h : process_file opts st f = .done st1) :
    (st1.error = true ↔ st.error = true ∨ classified_unclean opts st.fs f) := by
  unfold process_file at h
  unfold classified_unclean
  split at h
  · rename_i hemp
    simp only [Outcome.done.injEq] at h
    subst h
    have : f.fragments = [] := by simpa using hemp
    simp [this]
  · rename_i hemp
    have hne : f.fragments ≠ [] := by simpa using hemp
    split at h
    · exact absurd h (by simp)
    · rename_i new_path hnp
      split at h
      · exact absurd h (by simp)
      · rename_i new_file hnf
        split at h
        · rename_i happ
          simp only [Outcome.done.injEq] at h
          subst h
          constructor
          · intro he; exact Or.inl he
          · rintro (he | ⟨_, np, op, nf, of, h1, h2, h3, _⟩)
            · exact he
            · rw [hnp] at h1
              simp only [Option.some.injEq] at h1
              subst h1
              rw [hnf] at h2
              simp only [Except.ok.injEq] at h2
              subst h2
              rw [happ] at h3
              exact absurd h3 (by simp)
        · rename_i happ
          split at h
          · exact absurd h (by simp)
          · rename_i orig_path hop
            split at h
            · exact absurd h (by simp)
            · rename_i orig_file hof
              simp only at h
              split at h
              · rename_i hcls
                simp only [Outcome.done.injEq] at h
                subst h
                simp only [true_iff]
                right
                refine ⟨hne, new_path, orig_path, new_file, orig_file, hnp, hnf, ?_, hop, hof, ?_⟩
                · simpa using happ
                · simpa using hcls
              · rename_i hcls
                have hstay : st1.error = st.error := by
                  split at h
                  · exact absurd h (by simp)
                  · split at h <;>
                    · simp only [Outcome.done.injEq] at h
                      subst h
                      rfl
                rw [hstay]
                constructor
                · intro he; exact Or.inl he
                · rintro (he | ⟨_, np, op, nf, of, h1, h2, _, h4, h5, h6⟩)
                  · exact he
                  · rw [hop] at h4
                    simp only [Option.some.injEq] at h4
                    subst h4
                    rw [hof] at h5
                    simp only [Except.ok.injEq] at h5
                    subst h5
                    rw [h6] at hcls
                    exact absurd rfl hcls

theorem main_loop_append (opts : Opts) (pre rest : List FilePatch) (st : DriverState) :
    main_loop opts (pre ++ rest) st =
      match main_loop opts pre st with
      | .done st1 => main_loop opts rest st1
      | other => other := by
  induction pre generalizing st with
  | nil => simp [main_loop]
  | cons f fs ih =>
    simp only [List.cons_append, main_loop]
    cases hpf : process_file opts st f with
    | done st1 => simpa using ih st1
    | exception e st1 => rfl
    | undefined => rfl

theorem main_loop_error (opts : Opts) (patch : List FilePatch) :
    ∀ (st st1 : DriverState), main_loop opts patch st = .done st1 →
      (st1.error = true ↔ st.error = true ∨
        ∃ pre f post st0, patch = pre ++ f :: post ∧ main_loop opts pre st = .done st0
          ∧ classified_unclean opts st0.fs f) := by
  induction patch with
  | nil =>
    intro st st1 h
    simp only [main_loop, Outcome.done.injEq] at h
    subst h
    simp
  | cons f rest ih =>
    intro st st1 h
    unfold main_loop at h
    cases hpf : process_file opts st f with
    | exception e st2 => rw [hpf] at h; exact absurd h (by simp)
    | undefined => rw [hpf] at h; exact absurd h (by simp)
    | done st2 =>
      rw [hpf] at h
      simp only at h
      have h1 := process_file_error opts st st2 f hpf
      have h2 := ih st2 st1 h
      rw [h2, h1]
      constructor
      · rintro ((he | hu) | ⟨pre, g, post, st0, hsplit, hpre, hg⟩)
        · exact Or.inl he
        · exact Or.inr ⟨[], f, rest, st, rfl, rfl, hu⟩
        · refine Or.inr ⟨f :: pre, g, post, st0, by rw [hsplit]; rfl, ?_, hg⟩
          unfold main_loop
          rw [hpf]
          exact hpre
      · rintro (he | ⟨pre, g, post, st0, hsplit, hpre, hg⟩)
        · exact Or.inl (Or.inl he)
        · cases pre with
          | nil =>
            simp only [List.nil_append, List.cons.injEq] at hsplit
            obtain ⟨rfl, rfl⟩ := hsplit
            simp only [main_loop, Outcome.done.injEq] at hpre
            subst hpre
            exact Or.inl (Or.inr hg)
          | cons x xs =>
            simp only [List.cons_append, List.cons.injEq] at hsplit
            obtain ⟨rfl, rfl⟩ := hsplit
            unfold main_loop at hpre
            rw [hpf] at hpre
            exact Or.inr ⟨xs, g, post, st0, rfl, hpre, hg⟩

/-! ## Lemmas on the shape of the classification -/

theorem get_fragments_applied_loop_shape (file : List String) (fragments : List PatchFragment) :
    ∀ (st st1 : Int × List Bool), get_fragments_applied_loop file fragments st = some st1 →
      ∃ l, st1.2 = st.2 ++ l ∧ l.length = fragments.length := by
  induction fragments with
  | nil =>
    intro st st1 h
    simp only [get_fragments_applied_loop, Option.some.injEq] at h
    subst h
    exact ⟨[], by simp, rfl⟩
  | cons x rest ih =>
    intro st st1 h
    unfold get_fragments_applied_loop at h
    cases hstep : get_fragments_applied_step file st x with
    | none => rw [hstep] at h; exact absurd h (by simp)
    | some st2 =>
      rw [hstep] at h
      simp only at h
      obtain ⟨l, hl, hlen⟩ := ih st2 st1 h
      have h2 : ∃ b, st2.2 = st.2 ++ [b] := by
        unfold get_fragments_applied_step at hstep
        split at hstep
        · split at hstep
          · simp only [Option.some.injEq] at hstep
            exact ⟨true, by rw [← hstep]⟩
          · exact absurd hstep (by simp)
        · simp only [Option.some.injEq] at hstep
          exact ⟨false, by rw [← hstep]⟩
      obtain ⟨b, hb⟩ := h2
      refine ⟨b :: l, ?_, by simp [hlen]⟩
      rw [hl, hb]
      simp

theorem get_fragments_applied_eq_nil_iff (file : List String) (fragments : List PatchFragment)
    (hne : fragments ≠ []) :
    get_fragments_applied file fragments = []
      ↔ get_fragments_applied_loop file fragments (0, []) = none := by
  unfold get_fragments_applied
  cases hloop : get_fragments_applied_loop file fragments (0, []) with
  | none => simp
  | some st1 =>
    obtain ⟨l, hl, hlen⟩ := get_fragments_applied_loop_shape file fragments (0, []) st1 hloop
    simp only [List.nil_append] at hl
    simp only [hl, reduceCtorEq, iff_false]
    intro hnil
    rw [hnil] at hlen
    cases fragments with
    | nil => exact hne rfl
    | cons x xs => simp at hlen

/-! ## Lemmas on hunks that do not move lines -/

theorem bias_step_equal_length (x : PatchFragment) (h1 : x.orig_line = x.new_line)
    (h2 : x.orig_contents.length = x.new_contents.length) : bias_step 0 x = 0 := by
  have he : orig_one_past_end x = new_one_past_end x := by
    unfold orig_one_past_end new_one_past_end
    rw [h1, h2]
  unfold bias_step
  rw [he, sub_self]
  decide

theorem get_fragments_applied_loop_equal_length (file : List String)
    (fragments : List PatchFragment)
    (h : ∀ x ∈ fragments, x.in_range ∧ x.orig_line = x.new_line
      ∧ x.orig_contents.length = x.new_contents.length) :
    ∀ acc, get_fragments_applied_loop file fragments (0, acc)
      = (classify_by_content file fragments).map (fun l => (0, acc ++ l)) := by
  induction fragments with
  | nil => intro acc; simp [get_fragments_applied_loop, classify_by_content]
  | cons x rest ih =>
    intro acc
    obtain ⟨hr, h1, h2⟩ := h x (List.mem_cons_self _ _)
    have ih1 := ih (fun y hy => h y (List.mem_cons_of_mem _ hy))
    have hprobe : probe_offset x 0 = x.orig_line := unsigned_add_int_zero _ hr.1
    unfold get_fragments_applied_loop get_fragments_applied_step classify_by_content
    simp only [hprobe]
    by_cases hm : sublist_match file x.orig_line x.orig_contents = true
    · simp only [hm, Bool.not_true, Bool.false_eq_true, if_false, if_true, ih1]
      cases classify_by_content file rest <;> simp
    · have hm1 : sublist_match file x.orig_line x.orig_contents = false := by simpa using hm
      simp only [hm1, Bool.not_false, if_true, Bool.false_eq_true, if_false]
      by_cases hn : sublist_match file x.new_line x.new_contents = true
      · simp only [h1, hn, and_self, if_true, true_and]
        rw [bias_step_equal_length x h1 h2, ih1]
        cases classify_by_content file rest <;> simp
      · simp [hn]

/-! ## Lemmas on a hunk whose original start wrapped around -/

theorem get_fragments_applied_wrapped_start (file : List String) (frag : PatchFragment)
    (rest : List PatchFragment) (h : frag.orig_line = UINT_MOD - 1)
    (hlen : file.length ≤ UINT_MOD - 1) :
    sublist_match file frag.orig_line frag.orig_contents = false
      ∧ ¬ (frag.orig_line = frag.new_line
            ∧ sublist_match file frag.new_line frag.new_contents = true)
      ∧ get_fragments_applied file (frag :: rest) = [] := by
  have hfalse : ∀ pattern, sublist_match file frag.orig_line pattern = false := by
    intro pattern
    unfold sublist_match
    rw [if_pos (by omega)]
  have hprobe : probe_offset frag 0 = frag.orig_line :=
    unsigned_add_int_zero _ (by rw [h]; decide)
  have hnot : ¬ (frag.orig_line = frag.new_line
      ∧ sublist_match file frag.new_line frag.new_contents = true) := by
    rintro ⟨he, hm⟩
    rw [← he, hfalse] at hm
    exact absurd hm (by simp)
  refine ⟨hfalse _, hnot, ?_⟩
  unfold get_fragments_applied get_fragments_applied_loop get_fragments_applied_step
  simp only [hprobe, hfalse, Bool.not_false, if_true, hnot, if_false]

/-! ## Lemmas on texts that end in a newline -/

theorem getlines_from_append_newline (text cur : List Char) :
    getlines_from (text ++ ['\n']) cur = getlines_from text cur ++ [[]] := by
  induction text generalizing cur with
  | nil => simp [getlines_from]
  | cons c cs ih =>
    rw [List.cons_append, getlines_from, getlines_from]
    by_cases hc : c = '\n'
    · simp only [hc, if_true, List.cons_append, ih]
    · simp only [hc, if_false, ih]

theorem load_file_lines_append_newline (text : List Char) :
    load_file_lines (text ++ ['\n']) = load_file_lines text ++ [""] := by
  unfold load_file_lines getlines
  rw [getlines_from_append_newline, List.map_append]
  rfl

/-! ## The claims on hunk headers and on the sort step -/

/-- C11, counterexample. The line `@@ -1,4294967295 +1,1 @@` has the form of the claim: its
four integers are below `2^32` and both starts are at least `1`. Read when the file patch
`a -> b` is open, in a run that cannot allocate the `4294967295 * 32` bytes that
`orig_contents.reserve(4294967295)` asks for, the constructor of the hunk throws
`std::bad_alloc`: no hunk is appended, the line is a parse error. -/
theorem hunk_header_with_unreservable_length_fails :
    "@@ -1,4294967295 +1,1 @@".data
        = hunk_header_line [' '] ['1'] "4294967295".data [' '] ['1'] ['1'] [' '] []
      ∧ 1 ≤ digits_value ['1'] ∧ digits_value ['1'] < UINT_MOD
      ∧ digits_value "4294967295".data < UINT_MOD
      ∧ parse_line_in (reserve_within (2 ^ 36)) [⟨"a", "b", []⟩] "@@ -1,4294967295 +1,1 @@".data
          = some (.error "std::bad_alloc")
      ∧ load_patch_in (reserve_within (2 ^ 36)) "--- a\n+++ b\n@@ -1,4294967295 +1,1 @@\n".data
          = .format_error 3 "@@ -1,4294967295 +1,1 @@" "std::bad_alloc" := by
  refine ⟨rfl, by decide, by decide, by decide, rfl, by decide⟩

/-- C11, amended. For every line `@@<ws>-a,b<ws>+c,d<ws>@@<trailing>` whose four integers are
below `2^32`, with `a >= 1` and `c >= 1`, read when the last file patch has a `new_path`: if both
`reserve` calls of the hunk's constructor succeed (for the declared lengths `b` and `d`),
`load_patch` attaches to that file patch a hunk with `orig_line = a - 1`, `new_line = c - 1` and
empty contents; if one of them fails, the line is a parse error with the text of
`std::bad_alloc`. Such a line is a parse error when no file patch is open or the last one has no
`new_path`. A line that begins with `@@` and does not have this form (blanks, numbers and the
signs in this order) is always a parse error, for example `@@ -1 +1 @@`, without `,<int>`, and
`@@ -1,`, which ends where an integer is expected. -/
theorem hunk_header_conversion_when_reserved :
    (∀ (can_reserve : Nat → Bool) (init : List FilePatch) (f : FilePatch)
        (ws1 da db ws2 dc dd ws3 trailing : List Char),
      is_blanks ws1 → is_blanks ws2 → is_blanks ws3 →
      is_number da → is_number db → is_number dc → is_number dd →
      1 ≤ digits_value da → digits_value da < UINT_MOD → digits_value db < UINT_MOD →
      1 ≤ digits_value dc → digits_value dc < UINT_MOD → digits_value dd < UINT_MOD →
      f.new_path ≠ "" →
      (reserve_succeeds can_reserve (digits_value db) = true
          ∧ reserve_succeeds can_reserve (digits_value dd) = true →
        parse_line_in can_reserve (init ++ [f])
            (hunk_header_line ws1 da db ws2 dc dd ws3 trailing)
          = some (.ok (init ++ [{ f with fragments := f.fragments ++
              [⟨digits_value da - 1, digits_value dc - 1, [], []⟩] }])))
      ∧ (reserve_succeeds can_reserve (digits_value db) = false
          ∨ reserve_succeeds can_reserve (digits_value dd) = false →
        parse_line_in can_reserve (init ++ [f])
            (hunk_header_line ws1 da db ws2 dc dd ws3 trailing)
          = some (.error "std::bad_alloc")))
    ∧ (∀ (can_reserve : Nat → Bool) (rv : List FilePatch)
        (ws1 da db ws2 dc dd ws3 trailing : List Char),
        is_blanks ws1 → is_blanks ws2 → is_blanks ws3 →
        is_number da → is_number db → is_number dc → is_number dd →
        digits_value da < UINT_MOD → digits_value db < UINT_MOD →
        digits_value dc < UINT_MOD → digits_value dd < UINT_MOD →
        (rv = [] ∨ ∃ init f, rv = init ++ [f] ∧ f.new_path = "") →
        parse_line_in can_reserve rv (hunk_header_line ws1 da db ws2 dc dd ws3 trailing)
          = some (.error "@@ without preceding header"))
    ∧ (∀ (can_reserve : Nat → Bool) (rv : List FilePatch) (rest : List Char),
        (¬ ∃ ws1 da db ws2 dc dd ws3 trailing,
          '@' :: '@' :: rest = hunk_header_line ws1 da db ws2 dc dd ws3 trailing
            ∧ is_blanks ws1 ∧ is_blanks ws2 ∧ is_blanks ws3
            ∧ is_number da ∧ is_number db ∧ is_number dc ∧ is_number dd) →
        ∃ e, parse_line_in can_reserve rv ('@' :: '@' :: rest) = some (.error e))
    ∧ parse_line_in reserve_always [⟨"a", "b", []⟩] "@@ -3,2 +4,1 @@ fn".data
        = some (.ok [⟨"a", "b", [⟨2, 3, [], []⟩]⟩])
    ∧ parse_line_in reserve_always [⟨"a", "b", []⟩] "@@ -1 +1 @@".data
        = some (.error "Parser error: Expected ','")
    ∧ (∃ e, load_patch "--- a\n+++ b\n@@ -1,\n".data = .format_error 3 "@@ -1," e) := by
  have hmax : ∀ n, n < UINT_MOD → n ≤ LONG_MAX := by
    intro n hn
    unfold UINT_MOD at hn
    unfold LONG_MAX
    omega
  refine ⟨?_, ?_, ?_, rfl, rfl, ⟨"Expected digit, found \x60\x00\x60", by decide⟩⟩
  · intro can_reserve init f ws1 da db ws2 dc dd ws3 trailing h1 h2 h3 ha hb hc hd a1 a2 b2 c1 c2
      d2 hf
    have hstep := parse_line_in_hunk_header can_reserve (init ++ [f]) ws1 da db ws2 dc dd ws3
      trailing h1 h2 h3 ha hb hc hd (hmax _ a2) (hmax _ b2) (hmax _ c2) (hmax _ d2)
    rw [getLast?_snoc] at hstep
    simp only [hf, if_false, List.dropLast_concat, Nat.mod_eq_of_lt b2,
      Nat.mod_eq_of_lt d2] at hstep
    have ea : (digits_value da % UINT_MOD + (UINT_MOD - 1)) % UINT_MOD = digits_value da - 1 := by
      unfold UINT_MOD at *
      omega
    have ec : (digits_value dc % UINT_MOD + (UINT_MOD - 1)) % UINT_MOD = digits_value dc - 1 := by
      unfold UINT_MOD at *
      omega
    refine ⟨fun hres => ?_, fun hres => ?_⟩
    · rw [hstep, construct_ok can_reserve _ _ _ _ hres.1 hres.2]
      simp only [PatchFragment.create, ea, ec]
    · rw [hstep, construct_error can_reserve _ _ _ _ hres]
  · intro can_reserve rv ws1 da db ws2 dc dd ws3 trailing h1 h2 h3 ha hb hc hd a2 b2 c2 d2 hrv
    rw [parse_line_in_hunk_header can_reserve rv ws1 da db ws2 dc dd ws3 trailing h1 h2 h3 ha hb
      hc hd (hmax _ a2) (hmax _ b2) (hmax _ c2) (hmax _ d2)]
    rcases hrv with rfl | ⟨init, f, rfl, hf⟩
    · rfl
    · rw [getLast?_snoc]
      simp [hf]
  · intro can_reserve rv rest hform
    have hat := parse_line_in_at can_reserve rv rest
    cases hp : parse_line_in can_reserve rv ('@' :: '@' :: rest) with
    | none => exact absurd hp hat.1
    | some r =>
      cases r with
      | error e => exact ⟨e, rfl⟩
      | ok rv1 =>
        obtain ⟨⟨ws1, da, db, ws2, dc, dd, ws3, trailing, hl, hw1, hw2, hw3, ha, hb, hc, hd, _, _⟩,
          _⟩ := hat.2 rv1 hp
        exact absurd ⟨ws1, da, db, ws2, dc, dd, ws3, trailing, by rw [hl]; rfl, hw1, hw2, hw3,
          ha, hb, hc, hd⟩ hform

/-- C12, counterexample. The two patch texts differ only in the length field `b` of their hunk
header, `4294967295` against `1`, both valid integers. In a run that cannot allocate the
`4294967295 * 32` bytes that `orig_contents.reserve(4294967295)` asks for, `load_patch` ends the
first with a parse error on line 3 and returns a patch set for the second. -/
theorem unreservable_length_changes_outcome :
    List.Forall₂ differ_only_in_lengths
        (getlines "--- a\n+++ b\n@@ -1,4294967295 +1,1 @@".data)
        (getlines "--- a\n+++ b\n@@ -1,1 +1,1 @@".data)
      ∧ load_patch_in (reserve_within (2 ^ 36)) "--- a\n+++ b\n@@ -1,4294967295 +1,1 @@".data
          = .format_error 3 "@@ -1,4294967295 +1,1 @@" "std::bad_alloc"
      ∧ load_patch_in (reserve_within (2 ^ 36)) "--- a\n+++ b\n@@ -1,1 +1,1 @@".data
          = .ok [⟨"a", "b", [⟨0, 0, [], []⟩]⟩] := by
  refine ⟨?_, by decide, by decide⟩
  exact (show List.Forall₂ differ_only_in_lengths
      ["--- a".data, "+++ b".data, "@@ -1,4294967295 +1,1 @@".data]
      ["--- a".data, "+++ b".data, "@@ -1,1 +1,1 @@".data] from
    List.Forall₂.cons (Or.inl rfl) (List.Forall₂.cons (Or.inl rfl)
      (List.Forall₂.cons
        (Or.inr ⟨[' '], ['1'], "4294967295".data, ['1'], [' '], ['1'], ['1'], ['1'], [' '], [],
          rfl, rfl, by decide⟩)
        List.Forall₂.nil)))

/-- C12, amended. In every run, for any two patch texts whose lines are pairwise equal or are
hunk header lines that differ only in the digits of the length fields `b` and `d` (numbers that
fit the type `long`) and for which the two `reserve` calls of the hunk's constructor have the
same outcome (as they have whenever the memory for all declared lengths can be allocated),
`load_patch` has the same outcome: it returns the same patch set, with the same paths, hunk
starts, original and new lines, or fails on the same line number with the same message. -/
theorem declared_lengths_only_reserved (can_reserve : Nat → Bool) (text1 text2 : List Char)
    (h : List.Forall₂ (reserved_alike can_reserve) (getlines text1) (getlines text2)) :
    same_outcome (load_patch_in can_reserve text1) (load_patch_in can_reserve text2)
      ∧ (∀ rv, load_patch_in can_reserve text1 = .ok rv
          ↔ load_patch_in can_reserve text2 = .ok rv) := by
  have hsame : same_outcome (load_patch_in can_reserve text1)
      (load_patch_in can_reserve text2) :=
    load_patch_loop_in_lengths can_reserve (getlines text1) (getlines text2) h [] 0
  refine ⟨hsame, ?_⟩
  intro rv
  cases h1 : load_patch_in can_reserve text1 <;> cases h2 : load_patch_in can_reserve text2 <;>
    rw [h1, h2] at hsame <;> simp_all [same_outcome]

/-- C12, witness: the header `@@ -1,2 +1,1 @@` against `@@ -1,70 +1,9 @@` after `--- a` and
`+++ b`, in a run that can allocate up to `2^36` bytes at once. -/
theorem declared_lengths_only_reserved_witness :
    same_outcome
        (load_patch_in (reserve_within (2 ^ 36)) "--- a\n+++ b\n@@ -1,2 +1,1 @@".data)
        (load_patch_in (reserve_within (2 ^ 36)) "--- a\n+++ b\n@@ -1,70 +1,9 @@".data)
      ∧ (∀ rv, load_patch_in (reserve_within (2 ^ 36)) "--- a\n+++ b\n@@ -1,2 +1,1 @@".data
            = .ok rv
          ↔ load_patch_in (reserve_within (2 ^ 36)) "--- a\n+++ b\n@@ -1,70 +1,9 @@".data
            = .ok rv) :=
  declared_lengths_only_reserved (reserve_within (2 ^ 36)) "--- a\n+++ b\n@@ -1,2 +1,1 @@".data
    "--- a\n+++ b\n@@ -1,70 +1,9 @@".data
    (show List.Forall₂ (reserved_alike (reserve_within (2 ^ 36)))
        ["--- a".data, "+++ b".data, "@@ -1,2 +1,1 @@".data]
        ["--- a".data, "+++ b".data, "@@ -1,70 +1,9 @@".data] from
      List.Forall₂.cons (Or.inl rfl) (List.Forall₂.cons (Or.inl rfl)
        (List.Forall₂.cons
          (Or.inr ⟨[' '], ['1'], ['2'], ['7', '0'], [' '], ['1'], ['1'], ['9'], [' '], [],
            rfl, rfl, by decide⟩)
          List.Forall₂.nil)))

theorem process_file_unclean (opts : Opts) (st : DriverState) (f : FilePatch)
    (h : classified_unclean opts st.fs f) :
    ∃ orig_path, make_path opts.base_dir f.orig_path = some orig_path
      ∧ process_file opts st f
        = .done { st with error := true, reports := st.reports ++ [.not_clean orig_path] } := by
  obtain ⟨hne, np, op, nf, of, h1, h2, h3, h4, h5, h6⟩ := h
  refine ⟨op, h4, ?_⟩
  have hemp : f.fragments.isEmpty = false := by
    cases hf : f.fragments with
    | nil => exact absurd hf hne
    | cons x xs => rfl
  unfold process_file
  simp [hemp, h1, h2, h3, h4, h5, h6]

/-- C14, the code at the failing input, and what holds when the run completes. On the file
`A X` with the hunks `(0, [A] -> 0, [Z])` and `(1, [B, C, D] -> 1, [X])`, the target is not
already patched and the classification is clean (`[false, true]`), but the rewriter copies an
invalid range and the behaviour of the run is undefined: `main` does not return status 0.
For the runs of the loop over the file patches that complete, the flag `error` ends up set if and
only if it was set before or some file patch, in the file system left by the ones before it, is
classified unclean; an unclean file patch lets the loop go on with the next ones; and `main`
then returns status 1 if some file patch was classified unclean and status 0 otherwise. -/
theorem exit_status_with_unclean_files :
    get_fragments_applied ["A", "X"]
        [⟨0, 0, ["A"], ["Z"]⟩, ⟨1, 1, ["B", "C", "D"], ["X"]⟩] = [false, true]
      ∧ is_applied ["A", "X"] [⟨0, 0, ["A"], ["Z"]⟩, ⟨1, 1, ["B", "C", "D"], ["X"]⟩] = false
      ∧ main id ⟨"p", some "d", false⟩
          [("p", "--- a\n+++ a\n@@ -1,1 +1,1 @@\n-A\n+Z\n@@ -2,3 +2,1 @@\n-B\n-C\n-D\n+X\n".data),
            ("d/a", "A\nX".data)] = none
      ∧ (∀ (opts : Opts) (patch : List FilePatch) (st st1 : DriverState),
          main_loop opts patch st = .done st1 →
          (st1.error = true ↔ st.error = true ∨
            ∃ pre f post st0, patch = pre ++ f :: post ∧ main_loop opts pre st = .done st0
              ∧ classified_unclean opts st0.fs f))
      ∧ (∀ (opts : Opts) (f : FilePatch) (rest : List FilePatch) (st : DriverState),
          classified_unclean opts st.fs f →
          ∃ orig_path, main_loop opts (f :: rest) st
            = main_loop opts rest
                { st with error := true, reports := st.reports ++ [.not_clean orig_path] })
      ∧ (∀ (sort_fragments : List PatchFragment → List PatchFragment) (opts : Opts)
          (fs : FileSystem) (text : List Char) (patch : List FilePatch) (st1 : DriverState),
          fs.read opts.patchfile = some text → load_patch text = .ok patch →
          main_loop opts (sort_patch sort_fragments patch) ⟨fs, false, []⟩ = .done st1 →
          ∃ r, main sort_fragments opts fs = some r
            ∧ (r.status = 1 ↔
                ∃ pre f post st0, sort_patch sort_fragments patch = pre ++ f :: post
                  ∧ main_loop opts pre ⟨fs, false, []⟩ = .done st0
                  ∧ classified_unclean opts st0.fs f)
            ∧ (r.status ≠ 1 → r.status = 0)) := by
  refine ⟨by decide, by decide, by decide, fun opts patch => main_loop_error opts patch, ?_, ?_⟩
  · intro opts f rest st hu
    obtain ⟨orig_path, _, hpf⟩ := process_file_unclean opts st f hu
    exact ⟨orig_path, by rw [main_loop, hpf]⟩
  · intro sort_fragments opts fs text patch st1 hread hload hloop
    have herr := main_loop_error opts (sort_patch sort_fragments patch) ⟨fs, false, []⟩ st1 hloop
    simp only [Bool.false_eq_true, false_or] at herr
    refine ⟨⟨if st1.error then 1 else 0, st1.fs, st1.reports⟩, ?_, ?_, ?_⟩
    · rw [main_uses_sort_patch sort_fragments opts fs text patch hread hload, hloop]
    · rw [← herr]
      cases st1.error <;> simp
    · cases st1.error <;> simp

/-- C15. For every file and every hunk list in which each hunk has `orig_line = new_line` and as
many original as new lines, the loop of `get_fragments_applied` keeps the bias at 0 and records,
hunk by hunk, not-applied when the original lines match at `orig_line`, applied when they do not
and the new lines match at `new_line`; it returns the empty vector at the first hunk where
neither matches. -/
theorem classification_with_equal_length_hunks (file : List String)
    (fragments : List PatchFragment)
    (h : ∀ x ∈ fragments, x.in_range ∧ x.orig_line = x.new_line
      ∧ x.orig_contents.length = x.new_contents.length) :
    (∀ acc, get_fragments_applied_loop file fragments (0, acc)
        = (classify_by_content file fragments).map (fun l => (0, acc ++ l)))
      ∧ get_fragments_applied file fragments = (classify_by_content file fragments).getD [] := by
  have hloop := get_fragments_applied_loop_equal_length file fragments h
  refine ⟨hloop, ?_⟩
  unfold get_fragments_applied
  rw [hloop []]
  cases classify_by_content file fragments <;> simp

/-- C15, witness: the file `Z B C D E` with the hunks `(0, [A] -> [Z])` and `(3, [D] -> [D2])`
classifies as applied, not-applied. -/
theorem classification_with_equal_length_hunks_witness :
    get_fragments_applied ["Z", "B", "C", "D", "E"]
        [⟨0, 0, ["A"], ["Z"]⟩, ⟨3, 3, ["D"], ["D2"]⟩] = [true, false] :=
  (classification_with_equal_length_hunks ["Z", "B", "C", "D", "E"]
    [⟨0, 0, ["A"], ["Z"]⟩, ⟨3, 3, ["D"], ["D2"]⟩] (by decide)).2.trans (by decide)

/-- C17, the code at the failing input. On the file `A X` with the sorted, non-overlapping
hunks `(0, [A] -> 0, [Z])`, not applied, and `(1, [B, C, D] -> 1, [X])`, already applied, the
classification is clean (`[false, true]`); the loop of the rewriter ends with `src_ofs = 4` and
`src_bias = 2`, so the last copy is the range from `6` to the end `2` of the file, which is not a
valid range: the result of the rewriter is undefined. -/
theorem rewriter_copies_invalid_range :
    sorted_by_orig_line [⟨0, 0, ["A"], ["Z"]⟩, ⟨1, 1, ["B", "C", "D"], ["X"]⟩]
      ∧ non_overlapping [⟨0, 0, ["A"], ["Z"]⟩, ⟨1, 1, ["B", "C", "D"], ["X"]⟩]
      ∧ get_fragments_applied ["A", "X"]
          [⟨0, 0, ["A"], ["Z"]⟩, ⟨1, 1, ["B", "C", "D"], ["X"]⟩] = [false, true]
      ∧ apply_fragments_loop ["A", "X"] [false, true]
          [⟨0, 0, ["A"], ["Z"]⟩, ⟨1, 1, ["B", "C", "D"], ["X"]⟩] 0 [] 0 0
          = some (["Z"], 4, 2)
      ∧ copy_range ["A", "X"] ((4 : Int) + 2) 2 = none
      ∧ apply_fragments ["A", "X"]
          [⟨0, 0, ["A"], ["Z"]⟩, ⟨1, 1, ["B", "C", "D"], ["X"]⟩] [false, true] = none := by
  decide

theorem write_lines_cons (l : String) (ls : List String) :
    write_lines (l :: ls) = l.data ++ '\n' :: write_lines ls := by
  simp [write_lines]

theorem write_load_from (text cur : List Char) (h1 : '\r' ∉ text) (h2 : '\r' ∉ cur)
    (h3 : '\n' ∉ cur) :
    write_lines ((getlines_from text cur).map (fun raw => String.mk (strip_line_end raw)))
      = cur.reverse ++ text ++ ['\n'] := by
  have hstrip : ∀ raw : List Char, '\r' ∉ raw → '\n' ∉ raw → strip_line_end raw = raw := by
    intro raw hr hn
    exact strip_line_end_clean (String.mk raw)
      ⟨hn, fun hl => hr (List.mem_of_getLast?_eq_some hl)⟩
  induction text generalizing cur with
  | nil =>
    rw [getlines_from, List.map_cons, List.map_nil, write_lines_cons,
      hstrip _ (by simpa using h2) (by simpa using h3)]
    simp [write_lines]
  | cons c cs ih =>
    have hcs : '\r' ∉ cs := fun hm => h1 (List.mem_cons_of_mem _ hm)
    have hc : c ≠ '\r' := fun he => h1 (by rw [he]; exact List.mem_cons_self _ _)
    rw [getlines_from]
    by_cases hn : c = '\n'
    · rw [if_pos hn, List.map_cons, write_lines_cons,
        hstrip _ (by simpa using h2) (by simpa using h3),
        ih [] hcs (by simp) (by simp), hn]
      simp
    · rw [if_neg hn, ih (c :: cur) hcs
        (by
          intro hm
          rcases List.mem_cons.mp hm with he | hm
          · exact hc he.symm
          · exact h2 hm)
        (by
          intro hm
          rcases List.mem_cons.mp hm with he | hm
          · exact hn he.symm
          · exact h3 hm)]
      simp

/-- C18. For every file and every hunk list, `get_fragments_applied` returns either the empty
vector or a vector with exactly one entry per hunk; for a non-empty hunk list the empty vector
is returned exactly when the loop returned early, so it encodes "unclean" without ambiguity; the
entries are in hunk order, the classification of a prefix of the hunk list being the prefix of
the classification; for the empty hunk list the result is the empty vector too, and the driver
skips a file patch without hunks before any classification. -/
theorem classification_result_shape (file : List String) (fragments : List PatchFragment) :
    (get_fragments_applied file fragments = []
        ∨ (get_fragments_applied file fragments).length = fragments.length)
      ∧ (fragments ≠ [] →
          (get_fragments_applied file fragments = []
            ↔ get_fragments_applied_loop file fragments (0, []) = none))
      ∧ get_fragments_applied file [] = []
      ∧ (∀ pre post, fragments = pre ++ post → get_fragments_applied file fragments ≠ [] →
          get_fragments_applied file pre
            = (get_fragments_applied file fragments).take pre.length)
      ∧ (∀ (opts : Opts) (st : DriverState) (f : FilePatch), f.fragments = [] →
          process_file opts st f = .done st) := by
  refine ⟨?_, get_fragments_applied_eq_nil_iff file fragments, rfl, ?_, ?_⟩
  · unfold get_fragments_applied
    cases hloop : get_fragments_applied_loop file fragments (0, []) with
    | none => exact Or.inl rfl
    | some st1 =>
      obtain ⟨l, hl, hlen⟩ := get_fragments_applied_loop_shape file fragments (0, []) st1 hloop
      right
      simp only [List.nil_append] at hl
      simp only [hl, hlen]
  · intro pre post hsplit hne
    subst hsplit
    have hsome : ∃ st2, get_fragments_applied_loop file (pre ++ post) (0, []) = some st2 := by
      cases hall : get_fragments_applied_loop file (pre ++ post) (0, []) with
      | none =>
        exfalso
        apply hne
        unfold get_fragments_applied
        rw [hall]
      | some st2 => exact ⟨st2, rfl⟩
    obtain ⟨st2, hall⟩ := hsome
    have hbind := get_fragments_applied_loop_append file pre post (0, [])
    rw [hall] at hbind
    cases hpre : get_fragments_applied_loop file pre (0, []) with
    | none => rw [hpre] at hbind; exact absurd hbind (by simp)
    | some st1 =>
      rw [hpre, Option.some_bind] at hbind
      obtain ⟨l1, hl1, hlen1⟩ := get_fragments_applied_loop_shape file pre (0, []) st1 hpre
      obtain ⟨l2, hl2, _⟩ := get_fragments_applied_loop_shape file post st1 st2 hbind.symm
      simp only [List.nil_append] at hl1
      unfold get_fragments_applied
      rw [hall, hpre]
      simp only [hl2, hl1]
      rw [← hlen1, List.take_left']
      rfl
  · intro opts st f hf
    unfold process_file
    simp [hf]

/-- C19. A hunk header whose original start is 0 yields `orig_line = 2^32 - 1`, by the
wrap-around of `0 - 1` in `unsigned`; with a new start `c >= 1` it yields `new_line = c - 1`,
which differs from `orig_line`; the text with the header `@@ -0,0 +1,3 @@` parses to such a hunk.
For every file with fewer than `2^32 - 1` lines and every hunk with `orig_line = 2^32 - 1`,
`sublist_match` at `orig_line` fails, the hunk is not recognised as already applied, and
`get_fragments_applied` returns the empty vector for any hunk list starting with it. -/
theorem zero_start_wraps_around :
    (∀ b c d, (PatchFragment.create 0 b c d).orig_line = 2 ^ 32 - 1)
      ∧ (∀ b c d, 1 ≤ c → c < UINT_MOD →
          (PatchFragment.create 0 b c d).new_line = c - 1
            ∧ (PatchFragment.create 0 b c d).new_line
                ≠ (PatchFragment.create 0 b c d).orig_line)
      ∧ load_patch "--- a\n+++ a\n@@ -0,0 +1,3 @@\n+x\n+y\n+z\n".data
          = .ok [⟨"a", "a", [⟨4294967295, 0, [], ["x", "y", "z"]⟩]⟩]
      ∧ (∀ (file : List String) (frag : PatchFragment) (rest : List PatchFragment),
          frag.orig_line = 2 ^ 32 - 1 → file.length < 2 ^ 32 - 1 →
          sublist_match file frag.orig_line frag.orig_contents = false
            ∧ ¬ (frag.orig_line = frag.new_line
                  ∧ sublist_match file frag.new_line frag.new_contents = true)
            ∧ get_fragments_applied file (frag :: rest) = []) := by
  refine ⟨fun b c d => rfl, ?_, by decide, ?_⟩
  · intro b c d h1 h2
    unfold UINT_MOD at h2
    simp only [PatchFragment.create, UINT_MOD]
    omega
  · intro file frag rest h hlen
    exact get_fragments_applied_wrapped_start file frag rest (by rw [h]; rfl)
      (by unfold UINT_MOD; omega)

/-- C20. With the writer emitting every line followed by a newline and `load_file` cutting the
text at the newlines (and stripping one trailing carriage return per line), for every list of
lines that hold no newline and do not end in a carriage return, loading the written text returns
the list followed by one extra empty line, never the list itself, so one line more than was
written; a text that ends in a newline always loads with an empty last entry, and writing back
the lines loaded from a text without carriage returns gives the text with one more newline. -/
theorem load_write_round_trip (lines : List String) (h : ∀ l ∈ lines, clean_line l) :
    load_file_lines (write_lines lines) = lines ++ [""]
      ∧ load_file_lines (write_lines lines) ≠ lines
      ∧ (load_file_lines (write_lines lines)).length = lines.length + 1
      ∧ (∀ text : List Char, load_file_lines (text ++ ['\n']) = load_file_lines text ++ [""])
      ∧ (∀ text : List Char, '\r' ∉ text →
          write_lines (load_file_lines text) = text ++ ['\n']) := by
  have hrt := load_file_lines_write_lines lines h
  refine ⟨hrt, ?_, ?_, load_file_lines_append_newline, ?_⟩
  · rw [hrt]
    intro he
    have := congrArg List.length he
    simp at this
  · rw [hrt]
    simp
  · intro text htext
    unfold load_file_lines getlines
    rw [write_load_from text [] htext (by simp) (by simp)]
    simp

/-- C20, witness: the lines `X`, `C`, `D` are written as three lines of text and load as four
lines. -/
theorem load_write_round_trip_witness :
    load_file_lines (write_lines ["X", "C", "D"]) = ["X", "C", "D"] ++ [""] :=
  (load_write_round_trip ["X", "C", "D"] (by decide)).1

end Minipatch
